import Mathlib

/-
  Verification of the expression-notation converter (src/lib/conversion.ts).

  Strings of the TypeScript source are embedded as `List Char`; every
  function below mirrors one function of the source file.  Stateful loops
  (the tokenizer accumulator, the shunting-yard operator stack, the
  evaluator reduction stack) become structurally recursive functions whose
  extra arguments are exactly the mutable variables of the loop.  Thrown
  `Error`s become an explicit `ConvError` sum type with one constructor per
  distinct throw condition.
-/

abbrev Str := List Char

abbrev Tok := List Char

def lparenTok : Tok := ['(']

def rparenTok : Tok := [')']

/-- The JS regex `\s` test used by the tokenizer (whitespace classes). -/
def isSpaceJS (c : Char) : Bool :=
  c.toNat = 32 || c.toNat = 9 || c.toNat = 10 || c.toNat = 13 || c.toNat = 11 || c.toNat = 12

/-- The JS regex `\d` test: an ASCII decimal digit. -/
def isDigitC (c : Char) : Bool :=
  48 ≤ c.toNat && c.toNat ≤ 57

/-- The JS regex `[a-zA-Z]` test. -/
def isAlphaC (c : Char) : Bool :=
  (65 ≤ c.toNat && c.toNat ≤ 90) || (97 ≤ c.toNat && c.toNat ≤ 122)

/-- `isOperator` of the source, at the single-character level. -/
def isOperatorChar (c : Char) : Bool :=
  c == '+' || c == '-' || c == '*' || c == '/'

/-- `isOperator(token)`: the token is one of `+ - * /`. -/
def isOperatorTok (t : Tok) : Bool :=
  t == ['+'] || t == ['-'] || t == ['*'] || t == ['/']

/-- `getPrecedence(op)`: 1 for `+ -`, 2 for `* /`, 0 otherwise. -/
def getPrecedence (t : Tok) : Nat :=
  if t = ['+'] ∨ t = ['-'] then 1
  else if t = ['*'] ∨ t = ['/'] then 2
  else 0

/-- `isOperand(token)`: not an operator and not a parenthesis. -/
def isOperand (t : Tok) : Bool :=
  !isOperatorTok t && !(t == lparenTok) && !(t == rparenTok)

/-- One constructor per distinct throw condition of the source file. -/
inductive ConvError where
  | invalidCharacter : Char → ConvError
  | mismatchedParenUnexpectedClose : ConvError
  | mismatchedParenUnclosed : ConvError
  | invalidToken : Tok → ConvError
  | insufficientOperands : ConvError
  | malformedExpression : ConvError
  deriving DecidableEq, Repr

/-- `expression[i+1]` digit lookahead; out of range tests false in JS. -/
def digitNext : Str → Bool
  | [] => false
  | c :: _ => isDigitC c

/-- The loop of `tokenizeInfix`: `cur` is `currentToken`, `acc` the emitted
tokens.  Branch order follows the source: whitespace, digit (or `.` before a
digit), operator or parenthesis, letter, otherwise `InvalidCharacter`. -/
def tokenizeAux : Str → Tok → List Tok → Except ConvError (List Tok)
  | [], cur, acc => .ok (acc ++ (if cur.isEmpty then [] else [cur]))
  | c :: rest, cur, acc =>
    if isSpaceJS c then
      tokenizeAux rest [] (acc ++ (if cur.isEmpty then [] else [cur]))
    else if isDigitC c || (c == '.' && digitNext rest) then
      tokenizeAux rest (cur ++ [c]) acc
    else if isOperatorChar c || c == '(' || c == ')' then
      tokenizeAux rest [] ((acc ++ (if cur.isEmpty then [] else [cur])) ++ [[c]])
    else if isAlphaC c then
      if !cur.isEmpty && !(cur.any isDigitC) then
        tokenizeAux rest (cur ++ [c]) acc
      else if !cur.isEmpty then
        tokenizeAux rest [c] (acc ++ [cur])
      else
        tokenizeAux rest [c] acc
    else .error (.invalidCharacter c)

/-- `tokenizeInfix(expression)`. -/
def tokenizeInfix (s : Str) : Except ConvError (List Tok) :=
  tokenizeAux s [] []

/-- `tokenizePrefixPostfix`: `trim().split(/\s+/)` with empty fragments
dropped, i.e. the maximal runs of non-whitespace characters. -/
def splitWsAux : Str → Tok → List Tok → List Tok
  | [], cur, acc => acc ++ (if cur.isEmpty then [] else [cur])
  | c :: rest, cur, acc =>
    if isSpaceJS c then splitWsAux rest [] (acc ++ (if cur.isEmpty then [] else [cur]))
    else splitWsAux rest (cur ++ [c]) acc

def splitWs (s : Str) : List Tok :=
  splitWsAux s [] []

/-- `tokens.join(' ')`. -/
def joinSp : List Tok → Str
  | [] => []
  | [t] => t
  | t :: ts => t ++ ' ' :: joinSp ts

/-- `!text.trim()`: the string is empty or whitespace only. -/
def isBlank (s : Str) : Bool :=
  s.all isSpaceJS

/-- The inner `while` of the infix→postfix operator branch: pop to the
output while the top is not `(` and has precedence ≥ the incoming one. -/
def popGE (t : Tok) : List Tok → List Tok → List Tok × List Tok
  | [], out => ([], out)
  | s :: stack, out =>
    if s ≠ lparenTok ∧ getPrecedence t ≤ getPrecedence s then
      popGE t stack (out ++ [s])
    else (s :: stack, out)

/-- The inner `while` of the infix→prefix operator branch: pop only while
the top has strictly greater precedence. -/
def popGT (t : Tok) : List Tok → List Tok → List Tok × List Tok
  | [], out => ([], out)
  | s :: stack, out =>
    if s ≠ lparenTok ∧ getPrecedence t < getPrecedence s then
      popGT t stack (out ++ [s])
    else (s :: stack, out)

/-- The `)` branch: pop to the output until a `(` is found and discarded;
`none` when the stack is exhausted (the mismatched-parenthesis throw). -/
def popUntilLp : List Tok → List Tok → Option (List Tok × List Tok)
  | [], _ => none
  | s :: stack, out =>
    if s = lparenTok then some (stack, out) else popUntilLp stack (out ++ [s])

/-- The final drain of the operator stack; `none` when a `(` remains. -/
def syFlush : List Tok → List Tok → Option (List Tok)
  | [], out => some out
  | s :: stack, out =>
    if s = lparenTok then none else syFlush stack (out ++ [s])

/-- The token loop of `infixToPostfix` (shunting yard, pop on `≥`). -/
def syPost : List Tok → List Tok → List Tok → Except ConvError (List Tok)
  | [], stack, out =>
    match syFlush stack out with
    | some o => .ok o
    | none => .error .mismatchedParenUnclosed
  | t :: ts, stack, out =>
    if isOperand t then syPost ts stack (out ++ [t])
    else if t = lparenTok then syPost ts (t :: stack) out
    else if t = rparenTok then
      match popUntilLp stack out with
      | some (st, o) => syPost ts st o
      | none => .error .mismatchedParenUnexpectedClose
    else if isOperatorTok t then
      syPost ts (t :: (popGE t stack out).1) (popGE t stack out).2
    else .error (.invalidToken t)

/-- The token loop of `infixToPrefix` (pop on strict `>`); a token matching
no branch is skipped, exactly as in the source, which has no `else`. -/
def syPre : List Tok → List Tok → List Tok → Except ConvError (List Tok)
  | [], stack, out =>
    match syFlush stack out with
    | some o => .ok o
    | none => .error .mismatchedParenUnclosed
  | t :: ts, stack, out =>
    if isOperand t then syPre ts stack (out ++ [t])
    else if t = lparenTok then syPre ts (t :: stack) out
    else if t = rparenTok then
      match popUntilLp stack out with
      | some (st, o) => syPre ts st o
      | none => .error .mismatchedParenUnexpectedClose
    else if isOperatorTok t then
      syPre ts (t :: (popGT t stack out).1) (popGT t stack out).2
    else syPre ts stack out

/-- Parenthesis swap applied after reversing, as in `infixToPrefix`. -/
def swapTok (t : Tok) : Tok :=
  if t = lparenTok then rparenTok
  else if t = rparenTok then lparenTok
  else t

/-- Reverse the token list and swap the parentheses (steps 1–2 of
`infixToPrefix`). -/
def revSwap (ts : List Tok) : List Tok :=
  ts.reverse.map swapTok

/-- `infixToPostfix(infix)`. -/
def infixToPostfix (s : Str) : Except ConvError Str :=
  if isBlank s then .ok []
  else
    match tokenizeInfix s with
    | .error e => .error e
    | .ok ts =>
      match syPost ts [] [] with
      | .error e => .error e
      | .ok ps => .ok (joinSp ps)

/-- `infixToPrefix(infix)`. -/
def infixToPrefix (s : Str) : Except ConvError Str :=
  if isBlank s then .ok []
  else
    match tokenizeInfix s with
    | .error e => .error e
    | .ok ts =>
      match syPre (revSwap ts) [] [] with
      | .error e => .error e
      | .ok ps => .ok (joinSp ps.reverse)

/-- The composed sub-expression string `(${a} ${t} ${b})`. -/
def parenJoin (a : Str) (t : Tok) (b : Str) : Str :=
  '(' :: a ++ ' ' :: t ++ ' ' :: b ++ [')']

/-- The token loop of `postfixToInfix`: the first pop is the right operand,
the second the left. -/
def evalPost : List Tok → List Str → Except ConvError Str
  | [], stack =>
    match stack with
    | [x] => .ok x
    | _ => .error .malformedExpression
  | t :: ts, stack =>
    if isOperand t then evalPost ts (t :: stack)
    else if isOperatorTok t then
      match stack with
      | b :: a :: rest => evalPost ts (parenJoin a t b :: rest)
      | _ => .error .insufficientOperands
    else .error (.invalidToken t)

/-- The token loop of `prefixToInfix` (tokens already reversed): the first
pop is the left operand, the second the right. -/
def evalPre : List Tok → List Str → Except ConvError Str
  | [], stack =>
    match stack with
    | [x] => .ok x
    | _ => .error .malformedExpression
  | t :: ts, stack =>
    if isOperand t then evalPre ts (t :: stack)
    else if isOperatorTok t then
      match stack with
      | a :: b :: rest => evalPre ts (parenJoin a t b :: rest)
      | _ => .error .insufficientOperands
    else .error (.invalidToken t)

/-- `prefixToInfix(prefix)`: scan the split tokens right to left. -/
def prefixToInfix (s : Str) : Except ConvError Str :=
  if isBlank s then .ok []
  else evalPre (splitWs s).reverse []

/-- `postfixToInfix(postfix)`: scan the split tokens left to right. -/
def postfixToInfix (s : Str) : Except ConvError Str :=
  if isBlank s then .ok []
  else evalPost (splitWs s) []

/-- `prefixToPostfix(prefix)`: through the intermediate infix string. -/
def prefixToPostfix (s : Str) : Except ConvError Str :=
  if isBlank s then .ok []
  else
    match prefixToInfix s with
    | .error e => .error e
    | .ok m => infixToPostfix m

/-- `postfixToPrefix(postfix)`: through the intermediate infix string. -/
def postfixToPrefix (s : Str) : Except ConvError Str :=
  if isBlank s then .ok []
  else
    match postfixToInfix s with
    | .error e => .error e
    | .ok m => infixToPrefix m

/-
  Specification-side data model: the operand/operator tree denoted by an
  expression, and the grammar of valid infix token sequences.  These are the
  reference notions the round-trip claim compares the code against.
-/

/-- An operand/operator tree over the four binary operators. -/
inductive AExp where
  | atom : Tok → AExp
  | bin : Tok → AExp → AExp → AExp
  deriving DecidableEq, Repr

def isAddOpTok (t : Tok) : Bool :=
  t == ['+'] || t == ['-']

def isMulOpTok (t : Tok) : Bool :=
  t == ['*'] || t == ['/']

/-- An operand of the round-trip claim: a single letter or a number. -/
def wordTok (t : Tok) : Bool :=
  (match t with | [c] => isAlphaC c | _ => false) || (!t.isEmpty && t.all isDigitC)

/-- Grammar levels: full expression, term, factor. -/
inductive Lv where
  | e | t | f
  deriving DecidableEq, Repr

/-- `InfixDeriv lv ts x`: the token sequence `ts` is a valid infix
expression denoting the tree `x`, under the standard left-associative
two-level precedence grammar
`E ::= E addop T | T`, `T ::= T mulop F | F`, `F ::= operand | ( E )`. -/
inductive InfixDeriv : Lv → List Tok → AExp → Prop where
  | ofT : InfixDeriv .t ts x → InfixDeriv .e ts x
  | add : InfixDeriv .e ts1 x1 → isAddOpTok op = true → InfixDeriv .t ts2 x2 →
      InfixDeriv .e (ts1 ++ op :: ts2) (.bin op x1 x2)
  | ofF : InfixDeriv .f ts x → InfixDeriv .t ts x
  | mul : InfixDeriv .t ts1 x1 → isMulOpTok op = true → InfixDeriv .f ts2 x2 →
      InfixDeriv .t (ts1 ++ op :: ts2) (.bin op x1 x2)
  | operand : wordTok s = true → InfixDeriv .f [s] (.atom s)
  | paren : InfixDeriv .e ts x → InfixDeriv .f (lparenTok :: ts ++ [rparenTok]) x

/-- The mirror grammar: what a valid infix sequence becomes after reversal
and parenthesis swapping (left recursion turns into right recursion, and
the two subtrees swap sides).  `RevDeriv lv us x` says the reversed
sequence `us` derives, at level `lv`, the original tree `x`. -/
inductive RevDeriv : Lv → List Tok → AExp → Prop where
  | ofT : RevDeriv .t ts x → RevDeriv .e ts x
  | add : RevDeriv .t ts1 x1 → isAddOpTok op = true → RevDeriv .e ts2 x2 →
      RevDeriv .e (ts1 ++ op :: ts2) (.bin op x2 x1)
  | ofF : RevDeriv .f ts x → RevDeriv .t ts x
  | mul : RevDeriv .f ts1 x1 → isMulOpTok op = true → RevDeriv .t ts2 x2 →
      RevDeriv .t (ts1 ++ op :: ts2) (.bin op x2 x1)
  | operand : wordTok s = true → RevDeriv .f [s] (.atom s)
  | paren : RevDeriv .e ts x → RevDeriv .f (lparenTok :: ts ++ [rparenTok]) x

/-- Postfix serialization of a tree. -/
def postList : AExp → List Tok
  | .atom s => [s]
  | .bin op l r => postList l ++ postList r ++ [op]

/-- Prefix serialization of a tree. -/
def preList : AExp → List Tok
  | .atom s => [s]
  | .bin op l r => op :: (preList l ++ preList r)

/-- The reversed prefix serialization (what the inner prefix engine emits
before its final reversal). -/
def mPost : AExp → List Tok
  | .atom s => [s]
  | .bin op l r => mPost r ++ mPost l ++ [op]

/-- The fully parenthesized infix string the evaluators build for a tree. -/
def fullInfix : AExp → Str
  | .atom s => s
  | .bin op l r => parenJoin (fullInfix l) op (fullInfix r)

/-- The token sequence of the fully parenthesized infix form. -/
def fullToks : AExp → List Tok
  | .atom s => [s]
  | .bin op l r => lparenTok :: (fullToks l ++ op :: fullToks r) ++ [rparenTok]

/-- Well-formed tree: operands are words, operators among the four. -/
def treeWF : AExp → Bool
  | .atom s => wordTok s
  | .bin op l r => isOperatorTok op && treeWF l && treeWF r

/-- A token that survives a space-join/space-split round trip. -/
def goodTok (t : Tok) : Bool :=
  !t.isEmpty && t.all (fun c => !isSpaceJS c)

/-- Stack top allows processing an `E` segment of the plain grammar: empty
stack or an open parenthesis on top. -/
def TopE (stack : List Tok) : Prop :=
  stack = [] ∨ ∃ st, stack = lparenTok :: st

/-- Stack top allows processing a `T` segment: empty, `(`, or an additive
operator on top. -/
def TopT (stack : List Tok) : Prop :=
  stack = [] ∨ (∃ st, stack = lparenTok :: st) ∨ ∃ s st, stack = s :: st ∧ isAddOpTok s = true

/-- Invariant of the `≥`-popping engine run over a derivation: processing
the segment appends the emitted part to the output and leaves a pending
group of operators on top of the stack; emitted ++ pending is the postfix
serialization of the segment's tree. -/
def PostM : Lv → List Tok → AExp → Prop
  | .f, ts, x => ∀ rest stack out,
      syPost (ts ++ rest) stack out = syPost rest stack (out ++ postList x)
  | .t, ts, x => ∃ pend em, (∀ p ∈ pend, isMulOpTok p = true) ∧ em ++ pend = postList x ∧
      ∀ rest stack out, TopT stack →
        syPost (ts ++ rest) stack out = syPost rest (pend ++ stack) (out ++ em)
  | .e, ts, x => ∃ pend em, (∀ p ∈ pend, isOperatorTok p = true) ∧ em ++ pend = postList x ∧
      ∀ rest stack out, TopE stack →
        syPost (ts ++ rest) stack out = syPost rest (pend ++ stack) (out ++ em)

/-- Invariant of the strict `>`-popping engine run over a mirror
derivation; at level `e` the pending operators are a block of
multiplicative ones below a block of additive ones. -/
def PreM : Lv → List Tok → AExp → Prop
  | .f, ts, x => ∀ rest stack out,
      syPre (ts ++ rest) stack out = syPre rest stack (out ++ mPost x)
  | .t, ts, x => ∃ pend em, (∀ p ∈ pend, isMulOpTok p = true) ∧ em ++ pend = mPost x ∧
      ∀ rest stack out,
        syPre (ts ++ rest) stack out = syPre rest (pend ++ stack) (out ++ em)
  | .e, ts, x => ∃ pm pa em, (∀ p ∈ pm, isMulOpTok p = true) ∧ (∀ p ∈ pa, isAddOpTok p = true) ∧
      em ++ (pm ++ pa) = mPost x ∧
      ∀ rest stack out, TopT stack →
        syPre (ts ++ rest) stack out = syPre rest ((pm ++ pa) ++ stack) (out ++ em)

/-- Balanced-parenthesis check of a token sequence from open depth `d`:
never closes below depth zero and ends exactly at depth zero. -/
def checkBal : Nat → List Tok → Bool
  | d, [] => d = 0
  | d, t :: ts =>
    if t = lparenTok then checkBal (d + 1) ts
    else if t = rparenTok then decide (0 < d) && checkBal (d - 1) ts
    else checkBal d ts

/- Character class facts. -/

lemma opChar_cases {c : Char} (h : isOperatorChar c = true) :
    c = '+' ∨ c = '-' ∨ c = '*' ∨ c = '/' := by
  simp [isOperatorChar] at h
  tauto

lemma opTok_cases {t : Tok} (h : isOperatorTok t = true) :
    t = ['+'] ∨ t = ['-'] ∨ t = ['*'] ∨ t = ['/'] := by
  simp [isOperatorTok] at h
  tauto

lemma addOp_cases {t : Tok} (h : isAddOpTok t = true) : t = ['+'] ∨ t = ['-'] := by
  simp [isAddOpTok] at h
  tauto

lemma mulOp_cases {t : Tok} (h : isMulOpTok t = true) : t = ['*'] ∨ t = ['/'] := by
  simp [isMulOpTok] at h
  tauto

lemma alphaC_prop {c : Char} (h : isAlphaC c = true) :
    (65 ≤ c.toNat ∧ c.toNat ≤ 90) ∨ (97 ≤ c.toNat ∧ c.toNat ≤ 122) := by
  simp [isAlphaC] at h
  tauto

lemma digitC_prop {c : Char} (h : isDigitC c = true) : 48 ≤ c.toNat ∧ c.toNat ≤ 57 := by
  simp [isDigitC] at h
  tauto

lemma alpha_not_space {c : Char} (h : isAlphaC c = true) : isSpaceJS c = false := by
  have := alphaC_prop h
  simp [isSpaceJS]
  omega

lemma alpha_not_digit {c : Char} (h : isAlphaC c = true) : isDigitC c = false := by
  have := alphaC_prop h
  simp [isDigitC]
  omega

lemma digit_not_space {c : Char} (h : isDigitC c = true) : isSpaceJS c = false := by
  have := digitC_prop h
  simp [isSpaceJS]
  omega

lemma alpha_not_op {c : Char} (h : isAlphaC c = true) : isOperatorChar c = false := by
  cases hb : isOperatorChar c
  · rfl
  · rcases opChar_cases hb with rfl | rfl | rfl | rfl <;> exact absurd h (by decide)

lemma alpha_ne_lp {c : Char} (h : isAlphaC c = true) : (c == '(') = false := by
  cases hb : (c == '(')
  · rfl
  · simp at hb
    subst hb
    exact absurd h (by decide)

lemma alpha_ne_rp {c : Char} (h : isAlphaC c = true) : (c == ')') = false := by
  cases hb : (c == ')')
  · rfl
  · simp at hb
    subst hb
    exact absurd h (by decide)

lemma alpha_ne_dot {c : Char} (h : isAlphaC c = true) : (c == '.') = false := by
  cases hb : (c == '.')
  · rfl
  · simp at hb
    subst hb
    exact absurd h (by decide)

lemma digit_not_op {c : Char} (h : isDigitC c = true) : isOperatorChar c = false := by
  cases hb : isOperatorChar c
  · rfl
  · rcases opChar_cases hb with rfl | rfl | rfl | rfl <;> exact absurd h (by decide)

lemma digit_ne_lp {c : Char} (h : isDigitC c = true) : (c == '(') = false := by
  cases hb : (c == '(')
  · rfl
  · simp at hb
    subst hb
    exact absurd h (by decide)

lemma digit_ne_rp {c : Char} (h : isDigitC c = true) : (c == ')') = false := by
  cases hb : (c == ')')
  · rfl
  · simp at hb
    subst hb
    exact absurd h (by decide)

lemma opChar_not_space {c : Char} (h : isOperatorChar c = true) : isSpaceJS c = false := by
  rcases opChar_cases h with rfl | rfl | rfl | rfl <;> decide

lemma opChar_not_digit {c : Char} (h : isOperatorChar c = true) : isDigitC c = false := by
  rcases opChar_cases h with rfl | rfl | rfl | rfl <;> decide

lemma opChar_ne_dot {c : Char} (h : isOperatorChar c = true) : (c == '.') = false := by
  rcases opChar_cases h with rfl | rfl | rfl | rfl <;> decide

/- Token facts. -/

lemma opTok_ne_lp {t : Tok} (h : isOperatorTok t = true) : t ≠ lparenTok := by
  rcases opTok_cases h with rfl | rfl | rfl | rfl <;> decide

lemma opTok_ne_rp {t : Tok} (h : isOperatorTok t = true) : t ≠ rparenTok := by
  rcases opTok_cases h with rfl | rfl | rfl | rfl <;> decide

lemma opTok_not_operand {t : Tok} (h : isOperatorTok t = true) : isOperand t = false := by
  simp [isOperand, h]

lemma operand_facts {t : Tok} (h : isOperand t = true) :
    isOperatorTok t = false ∧ t ≠ lparenTok ∧ t ≠ rparenTok := by
  simp [isOperand] at h
  tauto

lemma addOp_isOp {t : Tok} (h : isAddOpTok t = true) : isOperatorTok t = true := by
  rcases addOp_cases h with rfl | rfl <;> decide

lemma mulOp_isOp {t : Tok} (h : isMulOpTok t = true) : isOperatorTok t = true := by
  rcases mulOp_cases h with rfl | rfl <;> decide

lemma addOp_prec {t : Tok} (h : isAddOpTok t = true) : getPrecedence t = 1 := by
  rcases addOp_cases h with rfl | rfl <;> decide

lemma mulOp_prec {t : Tok} (h : isMulOpTok t = true) : getPrecedence t = 2 := by
  rcases mulOp_cases h with rfl | rfl <;> decide

lemma opTok_prec_pos {t : Tok} (h : isOperatorTok t = true) : 1 ≤ getPrecedence t := by
  rcases opTok_cases h with rfl | rfl | rfl | rfl <;> decide

lemma prec_le_two (t : Tok) : getPrecedence t ≤ 2 := by
  unfold getPrecedence
  split
  · omega
  · split <;> omega

lemma wordTok_not_op {t : Tok} (h : wordTok t = true) : isOperatorTok t = false := by
  cases hb : isOperatorTok t
  · rfl
  · rcases opTok_cases hb with rfl | rfl | rfl | rfl <;> exact absurd h (by decide)

lemma wordTok_ne_lp {t : Tok} (h : wordTok t = true) : t ≠ lparenTok := by
  rintro rfl
  exact absurd h (by decide)

lemma wordTok_ne_rp {t : Tok} (h : wordTok t = true) : t ≠ rparenTok := by
  rintro rfl
  exact absurd h (by decide)

lemma wordTok_isOperand {t : Tok} (h : wordTok t = true) : isOperand t = true := by
  simp [isOperand, wordTok_not_op h, wordTok_ne_lp h, wordTok_ne_rp h]

lemma opTok_good {t : Tok} (h : isOperatorTok t = true) : goodTok t = true := by
  rcases opTok_cases h with rfl | rfl | rfl | rfl <;> decide

lemma wordTok_good {t : Tok} (h : wordTok t = true) : goodTok t = true := by
  simp [wordTok] at h
  rcases h with h | ⟨hne, hall⟩
  · rcases ht : t with _ | ⟨c, rest⟩
    · subst ht
      simp at h
    · subst ht
      rcases rest with _ | ⟨d, rest2⟩
      · simp at h
        simp [goodTok, alpha_not_space h]
      · simp at h
  · simp [goodTok, List.isEmpty_iff, hne]
    intro c hc
    exact digit_not_space (hall c hc)

lemma wordTok_swap {t : Tok} (h : wordTok t = true) : swapTok t = t := by
  simp [swapTok, wordTok_ne_lp h, wordTok_ne_rp h]

lemma opTok_swap {t : Tok} (h : isOperatorTok t = true) : swapTok t = t := by
  simp [swapTok, opTok_ne_lp h, opTok_ne_rp h]

/- Step lemmas for the two shunting-yard loops. -/

lemma syPost_operand {t : Tok} (h : isOperand t = true) (ts stack out) :
    syPost (t :: ts) stack out = syPost ts stack (out ++ [t]) := by
  simp [syPost, h]

lemma syPost_lp (ts stack out) :
    syPost (lparenTok :: ts) stack out = syPost ts (lparenTok :: stack) out := by
  have h : isOperand lparenTok = false := by decide
  simp [syPost, h]

lemma syPost_rp (ts stack out) :
    syPost (rparenTok :: ts) stack out =
      match popUntilLp stack out with
      | some (st, o) => syPost ts st o
      | none => .error .mismatchedParenUnexpectedClose := by
  have h : isOperand rparenTok = false := by decide
  have h2 : rparenTok ≠ lparenTok := by decide
  simp [syPost, h, h2]

lemma syPost_op {t : Tok} (h : isOperatorTok t = true) (ts stack out) :
    syPost (t :: ts) stack out =
      syPost ts (t :: (popGE t stack out).1) (popGE t stack out).2 := by
  simp [syPost, opTok_not_operand h, opTok_ne_lp h, opTok_ne_rp h, h]

lemma syPost_nil (stack out) :
    syPost [] stack out =
      match syFlush stack out with
      | some o => .ok o
      | none => .error .mismatchedParenUnclosed := by
  simp [syPost]

lemma syPre_operand {t : Tok} (h : isOperand t = true) (ts stack out) :
    syPre (t :: ts) stack out = syPre ts stack (out ++ [t]) := by
  simp [syPre, h]

lemma syPre_lp (ts stack out) :
    syPre (lparenTok :: ts) stack out = syPre ts (lparenTok :: stack) out := by
  have h : isOperand lparenTok = false := by decide
  simp [syPre, h]

lemma syPre_rp (ts stack out) :
    syPre (rparenTok :: ts) stack out =
      match popUntilLp stack out with
      | some (st, o) => syPre ts st o
      | none => .error .mismatchedParenUnexpectedClose := by
  have h : isOperand rparenTok = false := by decide
  have h2 : rparenTok ≠ lparenTok := by decide
  simp [syPre, h, h2]

lemma syPre_op {t : Tok} (h : isOperatorTok t = true) (ts stack out) :
    syPre (t :: ts) stack out =
      syPre ts (t :: (popGT t stack out).1) (popGT t stack out).2 := by
  simp [syPre, opTok_not_operand h, opTok_ne_lp h, opTok_ne_rp h, h]

lemma syPre_nil (stack out) :
    syPre [] stack out =
      match syFlush stack out with
      | some o => .ok o
      | none => .error .mismatchedParenUnclosed := by
  simp [syPre]

/- Facts about the pop helpers. -/

lemma popGE_all {t : Tok} :
    ∀ pre stack out, (∀ p ∈ pre, p ≠ lparenTok ∧ getPrecedence t ≤ getPrecedence p) →
      (stack = [] ∨ ∃ s st, stack = s :: st ∧ (s = lparenTok ∨ getPrecedence s < getPrecedence t)) →
      popGE t (pre ++ stack) out = (stack, out ++ pre)
  | [], stack, out, _, hstop => by
    rcases hstop with rfl | ⟨s, st, rfl, hs⟩
    · simp [popGE]
    · have : ¬(s ≠ lparenTok ∧ getPrecedence t ≤ getPrecedence s) := by
        rcases hs with rfl | hs
        · simp
        · intro hc
          omega
      simp [popGE, this]
  | p :: pre, stack, out, hpre, hstop => by
    have hp := hpre p (List.mem_cons_self p pre)
    have : popGE t ((p :: pre) ++ stack) out = popGE t (pre ++ stack) (out ++ [p]) := by
      simp [popGE, hp.1, hp.2]
    rw [this, popGE_all pre stack (out ++ [p]) (fun q hq => hpre q (List.mem_cons_of_mem p hq)) hstop]
    simp

lemma popGT_all {t : Tok} :
    ∀ pre stack out, (∀ p ∈ pre, p ≠ lparenTok ∧ getPrecedence t < getPrecedence p) →
      (stack = [] ∨ ∃ s st, stack = s :: st ∧ (s = lparenTok ∨ getPrecedence s ≤ getPrecedence t)) →
      popGT t (pre ++ stack) out = (stack, out ++ pre)
  | [], stack, out, _, hstop => by
    rcases hstop with rfl | ⟨s, st, rfl, hs⟩
    · simp [popGT]
    · have : ¬(s ≠ lparenTok ∧ getPrecedence t < getPrecedence s) := by
        rcases hs with rfl | hs
        · simp
        · intro hc
          omega
      simp [popGT, this]
  | p :: pre, stack, out, hpre, hstop => by
    have hp := hpre p (List.mem_cons_self p pre)
    have : popGT t ((p :: pre) ++ stack) out = popGT t (pre ++ stack) (out ++ [p]) := by
      simp [popGT, hp.1, hp.2]
    rw [this, popGT_all pre stack (out ++ [p]) (fun q hq => hpre q (List.mem_cons_of_mem p hq)) hstop]
    simp

lemma popGT_top {t : Tok} (h : getPrecedence t = 2) (stack out) :
    popGT t stack out = (stack, out) := by
  cases stack with
  | nil => simp [popGT]
  | cons s st =>
    have : ¬(s ≠ lparenTok ∧ getPrecedence t < getPrecedence s) := by
      intro hc
      have := prec_le_two s
      omega
    simp [popGT, this]

lemma popUntilLp_all :
    ∀ pre stack out, (∀ p ∈ pre, p ≠ lparenTok) →
      popUntilLp (pre ++ lparenTok :: stack) out = some (stack, out ++ pre)
  | [], stack, out, _ => by simp [popUntilLp]
  | p :: pre, stack, out, hpre => by
    have hp := hpre p (List.mem_cons_self p pre)
    have : popUntilLp ((p :: pre) ++ lparenTok :: stack) out
        = popUntilLp (pre ++ lparenTok :: stack) (out ++ [p]) := by
      simp [popUntilLp, hp]
    rw [this, popUntilLp_all pre stack (out ++ [p]) (fun q hq => hpre q (List.mem_cons_of_mem p hq))]
    simp

lemma syFlush_all :
    ∀ stack out, lparenTok ∉ stack → syFlush stack out = some (out ++ stack)
  | [], out, _ => by simp [syFlush]
  | s :: stack, out, h => by
    have h1 : s ≠ lparenTok := fun hs => h (hs ▸ List.mem_cons_self s stack)
    have h2 : lparenTok ∉ stack := fun hs => h (List.mem_cons_of_mem s hs)
    rw [syFlush]
    simp only [if_neg h1]
    rw [syFlush_all stack (out ++ [s]) h2]
    simp

/- Step lemmas for the two evaluators. -/

lemma evalPost_operand {t : Tok} (h : isOperand t = true) (ts stack) :
    evalPost (t :: ts) stack = evalPost ts (t :: stack) := by
  simp [evalPost, h]

lemma evalPost_op {t : Tok} (h : isOperatorTok t = true) (ts b a rest) :
    evalPost (t :: ts) (b :: a :: rest) = evalPost ts (parenJoin a t b :: rest) := by
  simp [evalPost, opTok_not_operand h, h]

lemma evalPre_operand {t : Tok} (h : isOperand t = true) (ts stack) :
    evalPre (t :: ts) stack = evalPre ts (t :: stack) := by
  simp [evalPre, h]

lemma evalPre_op {t : Tok} (h : isOperatorTok t = true) (ts a b rest) :
    evalPre (t :: ts) (a :: b :: rest) = evalPre ts (parenJoin a t b :: rest) := by
  simp [evalPre, opTok_not_operand h, h]

/- Whitespace-only strings split to no tokens. -/

lemma splitWsAux_blank :
    ∀ s acc, s.all isSpaceJS = true → splitWsAux s [] acc = acc
  | [], acc, _ => by simp [splitWsAux]
  | c :: rest, acc, h => by
    simp only [List.all_cons, Bool.and_eq_true] at h
    rw [splitWsAux]
    simp only [if_pos h.1]
    simpa using splitWsAux_blank rest acc h.2

lemma splitWs_ne_nil_not_blank {s : Str} (h : splitWs s ≠ []) : isBlank s = false := by
  cases hb : isBlank s
  · rfl
  · exact absurd (splitWsAux_blank s [] hb) h

/- An input token that is neither an operand nor an operator (i.e. a bare
parenthesis token) makes the evaluators fail. -/

lemma evalPost_offender :
    ∀ ts stack, (∃ t ∈ ts, isOperand t = false ∧ isOperatorTok t = false) →
      ∃ e, evalPost ts stack = .error e
  | [], _, h => by simp at h
  | t' :: ts, stack, h => by
    by_cases h1 : isOperand t' = true
    · rw [evalPost_operand h1]
      apply evalPost_offender ts
      rcases h with ⟨t, hmem, hop, hot⟩
      rcases List.mem_cons.mp hmem with rfl | hmem2
      · rw [h1] at hop
        cases hop
      · exact ⟨t, hmem2, hop, hot⟩
    · by_cases h2 : isOperatorTok t' = true
      · rcases stack with _ | ⟨b, _ | ⟨a, rest⟩⟩
        · exact ⟨.insufficientOperands, by simp [evalPost, h1, h2]⟩
        · exact ⟨.insufficientOperands, by simp [evalPost, h1, h2]⟩
        · rw [evalPost_op h2]
          apply evalPost_offender ts
          rcases h with ⟨t, hmem, hop, hot⟩
          rcases List.mem_cons.mp hmem with rfl | hmem2
          · rw [h2] at hot
            cases hot
          · exact ⟨t, hmem2, hop, hot⟩
      · exact ⟨.invalidToken t', by simp [evalPost, h1, h2]⟩

lemma evalPre_offender :
    ∀ ts stack, (∃ t ∈ ts, isOperand t = false ∧ isOperatorTok t = false) →
      ∃ e, evalPre ts stack = .error e
  | [], _, h => by simp at h
  | t' :: ts, stack, h => by
    by_cases h1 : isOperand t' = true
    · rw [evalPre_operand h1]
      apply evalPre_offender ts
      rcases h with ⟨t, hmem, hop, hot⟩
      rcases List.mem_cons.mp hmem with rfl | hmem2
      · rw [h1] at hop
        cases hop
      · exact ⟨t, hmem2, hop, hot⟩
    · by_cases h2 : isOperatorTok t' = true
      · rcases stack with _ | ⟨a, _ | ⟨b, rest⟩⟩
        · exact ⟨.insufficientOperands, by simp [evalPre, h1, h2]⟩
        · exact ⟨.insufficientOperands, by simp [evalPre, h1, h2]⟩
        · rw [evalPre_op h2]
          apply evalPre_offender ts
          rcases h with ⟨t, hmem, hop, hot⟩
          rcases List.mem_cons.mp hmem with rfl | hmem2
          · rw [h2] at hot
            cases hot
          · exact ⟨t, hmem2, hop, hot⟩
      · exact ⟨.invalidToken t', by simp [evalPre, h1, h2]⟩

/-- C2.  Multiplication binds tighter than addition in both conversion
directions: `infixToPostfix "a+b*c" = "a b c * +"` and
`infixToPrefix "a+b*c" = "+ a * b c"`. -/
theorem claim_C2_precedence :
    infixToPostfix ("a+b*c".toList) = .ok ("a b c * +".toList) ∧
    infixToPrefix ("a+b*c".toList) = .ok ("+ a * b c".toList) :=
  ⟨by rfl, by rfl⟩

/-- C3.  Equal-precedence operators group left to right in both engines:
`infixToPostfix "a-b-c" = "a b - c -"` and `infixToPrefix "a-b-c" =
"- - a b c"`; the asymmetry is real: the `≥` loop pops an equal-precedence
stack top while the strict `>` loop of the prefix engine leaves it. -/
theorem claim_C3_associativity :
    infixToPostfix ("a-b-c".toList) = .ok ("a b - c -".toList) ∧
    infixToPrefix ("a-b-c".toList) = .ok ("- - a b c".toList) ∧
    (∀ t s stack out, s ≠ lparenTok → getPrecedence s = getPrecedence t →
      popGE t (s :: stack) out = popGE t stack (out ++ [s])) ∧
    (∀ t s stack out, getPrecedence s = getPrecedence t →
      popGT t (s :: stack) out = (s :: stack, out)) := by
  refine ⟨by rfl, by rfl, ?_, ?_⟩
  · intro t s stack out h1 h2
    simp [popGE, h1, h2]
  · intro t s stack out h2
    have hc : ¬(s ≠ lparenTok ∧ getPrecedence t < getPrecedence s) := by
      intro hc
      omega
    simp [popGT, hc]

/-- C3 witness: instantiated at the `-` operator with an empty stack. -/
theorem claim_C3_witness :
    (['-'] : Tok) ≠ lparenTok ∧ getPrecedence ['-'] = getPrecedence ['-'] ∧
    popGE ['-'] [['-']] [] = popGE ['-'] [] [[['-']].head (by decide)] ∧
    popGT ['-'] [['-']] [] = ([['-']], []) :=
  ⟨by decide, rfl,
   claim_C3_associativity.2.2.1 ['-'] ['-'] [] [] (by decide) rfl,
   claim_C3_associativity.2.2.2 ['-'] ['-'] [] [] rfl⟩

/-- C6.  `infixToPostfix` reports the side of a parenthesis imbalance:
an unmatched `)` gives `MismatchedParenUnexpectedClose`, an unclosed `(`
gives `MismatchedParenUnclosed`. -/
theorem claim_C6_paren_errors :
    infixToPostfix ("a+b)".toList) = .error .mismatchedParenUnexpectedClose ∧
    infixToPostfix ("(a+b".toList) = .error .mismatchedParenUnclosed :=
  ⟨by rfl, by rfl⟩

/-- C7.  `infixToPrefix` flips the reported direction because of the
reversal: an unmatched `(` of the original text fails with
`MismatchedParenUnexpectedClose` (the internal unexpected-close branch),
an unmatched `)` with `MismatchedParenUnclosed` (the internal unclosed
branch). -/
theorem claim_C7_paren_flip :
    infixToPrefix ("(a+b".toList) = .error .mismatchedParenUnexpectedClose ∧
    infixToPrefix ("a+b)".toList) = .error .mismatchedParenUnclosed :=
  ⟨by rfl, by rfl⟩

/-- C8.  The evaluators validate operand counts: an operator reached with
fewer than two stacked elements fails with `InsufficientOperands`, and a
scan ending with a stack size other than one fails with
`MalformedExpression`; e.g. `postfixToInfix "a +"` and
`postfixToInfix "a b c"`. -/
theorem claim_C8_operand_counts :
    (∀ t ts stack, isOperatorTok t = true → stack.length < 2 →
      evalPost (t :: ts) stack = .error .insufficientOperands ∧
      evalPre (t :: ts) stack = .error .insufficientOperands) ∧
    (∀ stack : List Str, stack.length ≠ 1 →
      evalPost [] stack = .error .malformedExpression ∧
      evalPre [] stack = .error .malformedExpression) ∧
    postfixToInfix ("a +".toList) = .error .insufficientOperands ∧
    postfixToInfix ("a b c".toList) = .error .malformedExpression := by
  refine ⟨?_, ?_, by rfl, by rfl⟩
  · intro t ts stack ht hlen
    rcases stack with _ | ⟨x, _ | ⟨y, r⟩⟩
    · exact ⟨by simp [evalPost, opTok_not_operand ht, ht],
        by simp [evalPre, opTok_not_operand ht, ht]⟩
    · exact ⟨by simp [evalPost, opTok_not_operand ht, ht],
        by simp [evalPre, opTok_not_operand ht, ht]⟩
    · simp at hlen
      omega
  · intro stack hlen
    rcases stack with _ | ⟨x, _ | ⟨y, r⟩⟩
    · exact ⟨by simp [evalPost], by simp [evalPre]⟩
    · simp at hlen
    · exact ⟨by simp [evalPost], by simp [evalPre]⟩

/-- C8 witness: the insufficiency and end-of-scan checks at concrete
stacks. -/
theorem claim_C8_witness :
    isOperatorTok ['+'] = true ∧ ([] : List Str).length < 2 ∧
    evalPost [['+']] [] = .error .insufficientOperands ∧
    ([['a'], ['b']] : List Str).length ≠ 1 ∧
    evalPost [] [['a'], ['b']] = .error .malformedExpression :=
  ⟨by decide, by decide,
   (claim_C8_operand_counts.1 ['+'] [] [] (by decide) (by decide)).1,
   by decide,
   (claim_C8_operand_counts.2.1 [['a'], ['b']] (by decide)).1⟩

/-- C9.  The two cross-notation operations are exactly the composition of
evaluator and engine through the intermediate infix string, for every
input (including the blank short-circuit); and
`postfixToPrefix "a b + c *" = "* + a b c"`. -/
theorem claim_C9_composition :
    (∀ s, prefixToPostfix s = (prefixToInfix s).bind infixToPostfix) ∧
    (∀ s, postfixToPrefix s = (postfixToInfix s).bind infixToPrefix) ∧
    postfixToPrefix ("a b + c *".toList) = .ok ("* + a b c".toList) := by
  refine ⟨?_, ?_, by rfl⟩
  · intro s
    unfold prefixToPostfix
    by_cases hb : isBlank s = true
    · rw [if_pos hb, show prefixToInfix s = .ok [] from by simp [prefixToInfix, hb]]
      rfl
    · simp only [Bool.not_eq_true] at hb
      simp only [hb, Bool.false_eq_true, if_false]
      cases prefixToInfix s <;> simp [Except.bind]
  · intro s
    unfold postfixToPrefix
    by_cases hb : isBlank s = true
    · rw [if_pos hb, show postfixToInfix s = .ok [] from by simp [postfixToInfix, hb]]
      rfl
    · simp only [Bool.not_eq_true] at hb
      simp only [hb, Bool.false_eq_true, if_false]
      cases postfixToInfix s <;> simp [Except.bind]

/-- C4 counterexample.  The claim says the tokenizer never produces a
token mixing letters and digits and that `"a12"` splits into two tokens;
in fact a digit is appended to the accumulator unconditionally, so
`"a12"` tokenizes as the single mixed token `a12`. -/
theorem claim_C4_counterexample :
    tokenizeInfix ("a12".toList) = .ok [['a', '1', '2']] ∧
    ['a', '1', '2'].any isAlphaC = true ∧ ['a', '1', '2'].any isDigitC = true :=
  ⟨by rfl, by decide, by decide⟩

/-- C4 amended.  A letter reached while the accumulator holds a digit
flushes the number and starts a new identifier (`"12a"` gives two
tokens), but a digit is always appended to the accumulator, even to one
holding letters, so `"a12"` tokenizes as the single mixed token `a12`. -/
theorem claim_C4_amended :
    (∀ c rest cur acc, isAlphaC c = true → cur ≠ [] → cur.any isDigitC = true →
      tokenizeAux (c :: rest) cur acc = tokenizeAux rest [c] (acc ++ [cur])) ∧
    (∀ c rest cur acc, isDigitC c = true →
      tokenizeAux (c :: rest) cur acc = tokenizeAux rest (cur ++ [c]) acc) ∧
    tokenizeInfix ("12a".toList) = .ok [['1', '2'], ['a']] ∧
    tokenizeInfix ("a12".toList) = .ok [['a', '1', '2']] := by
  refine ⟨?_, ?_, by rfl, by rfl⟩
  · intro c rest cur acc h hne hdig
    have h7 : cur.isEmpty = false := by
      cases cur
      · exact absurd rfl hne
      · rfl
    simp [tokenizeAux, alpha_not_space h, alpha_not_digit h, alpha_ne_dot h,
      alpha_not_op h, alpha_ne_lp h, alpha_ne_rp h, h, h7, hdig]
  · intro c rest cur acc h
    simp [tokenizeAux, digit_not_space h, h]

/-- C4 witness: the flush and append transitions at concrete states. -/
theorem claim_C4_witness :
    isAlphaC 'a' = true ∧ (['1'] : Tok) ≠ [] ∧ (['1'] : Tok).any isDigitC = true ∧
    tokenizeAux ['a'] ['1'] [] = tokenizeAux [] ['a'] [['1']] ∧
    isDigitC '1' = true ∧
    tokenizeAux ['1'] ['a'] [] = tokenizeAux [] (['a'] ++ ['1']) [] :=
  ⟨by decide, by decide, by decide,
   claim_C4_amended.1 'a' [] ['1'] [] (by decide) (by decide) (by decide),
   by decide,
   claim_C4_amended.2.1 '1' [] ['a'] [] (by decide)⟩

/-- C5 counterexample.  The claim says a token that is not made of digits
and letters and is not an operator fails with `InvalidToken`; in fact
`isOperand` accepts every token that is not an operator or parenthesis,
so `postfixToInfix "@"` succeeds and returns `@`. -/
theorem claim_C5_counterexample :
    postfixToInfix ("@".toList) = .ok ['@'] ∧
    isAlphaC '@' = false ∧ isDigitC '@' = false ∧ isOperatorTok ['@'] = false :=
  ⟨by rfl, by decide, by decide, by decide⟩

/-- C5 amended.  The tokens rejected by the evaluators are exactly those
that are neither an operand in the code's sense (anything but the four
operators and the two parenthesis tokens) nor an operator — i.e. exactly
the bare `(` and `)` tokens; reaching such a token fails with
`InvalidToken`, and an input containing one never succeeds. -/
theorem claim_C5_amended :
    (∀ t : Tok, (isOperand t = false ∧ isOperatorTok t = false) ↔
      (t = lparenTok ∨ t = rparenTok)) ∧
    (∀ t ts stack, isOperand t = false → isOperatorTok t = false →
      evalPost (t :: ts) stack = .error (.invalidToken t) ∧
      evalPre (t :: ts) stack = .error (.invalidToken t)) ∧
    (∀ s t, t ∈ splitWs s → isOperand t = false → isOperatorTok t = false →
      (∃ e, postfixToInfix s = .error e) ∧ (∃ e, prefixToInfix s = .error e)) := by
  refine ⟨?_, ?_, ?_⟩
  · intro t
    constructor
    · rintro ⟨h1, h2⟩
      simp [isOperand, h2] at h1
      tauto
    · rintro (rfl | rfl)
      · exact ⟨by decide, by decide⟩
      · exact ⟨by decide, by decide⟩
  · intro t ts stack h1 h2
    exact ⟨by simp [evalPost, h1, h2], by simp [evalPre, h1, h2]⟩
  · intro s t hmem h1 h2
    have hnb : isBlank s = false :=
      splitWs_ne_nil_not_blank (by rintro hnil; rw [hnil] at hmem; simp at hmem)
    constructor
    · rw [show postfixToInfix s = evalPost (splitWs s) [] from by simp [postfixToInfix, hnb]]
      exact evalPost_offender (splitWs s) [] ⟨t, hmem, h1, h2⟩
    · rw [show prefixToInfix s = evalPre (splitWs s).reverse [] from by
        simp [prefixToInfix, hnb]]
      exact evalPre_offender (splitWs s).reverse []
        ⟨t, List.mem_reverse.mpr hmem, h1, h2⟩

/-- C5 witness: the paren tokens at concrete states, and a concrete
postfix input containing one. -/
theorem claim_C5_witness :
    isOperand lparenTok = false ∧ isOperatorTok lparenTok = false ∧
    evalPost [lparenTok] [] = .error (.invalidToken lparenTok) ∧
    evalPre [lparenTok] [] = .error (.invalidToken lparenTok) ∧
    lparenTok ∈ splitWs ("a ( b".toList) ∧
    (∃ e, postfixToInfix ("a ( b".toList) = .error e) :=
  ⟨by decide, by decide,
   (claim_C5_amended.2.1 lparenTok [] [] (by decide) (by decide)).1,
   (claim_C5_amended.2.1 lparenTok [] [] (by decide) (by decide)).2,
   by decide,
   (claim_C5_amended.2.2 ("a ( b".toList) lparenTok (by decide) (by decide) (by decide)).1⟩

/- Balance bookkeeping: `checkBal` in terms of parenthesis counts, and its
preservation under reversal with parenthesis swapping. -/

lemma not_operand_cases {t : Tok} (h1 : isOperand t = false) (h2 : isOperatorTok t = false) :
    t = lparenTok ∨ t = rparenTok := by
  simp [isOperand, h2] at h1
  tauto

lemma checkBal_iff :
    ∀ ts d, checkBal d ts = true ↔
      ((∀ p q, ts = p ++ q → List.count rparenTok p ≤ d + List.count lparenTok p) ∧
        d + List.count lparenTok ts = List.count rparenTok ts) := by
  have dne : ¬lparenTok = rparenTok := by decide
  have dne2 : ¬rparenTok = lparenTok := by decide
  intro ts
  induction ts with
  | nil =>
    intro d
    simp only [checkBal, decide_eq_true_eq, List.count_nil, Nat.add_zero]
    constructor
    · rintro rfl
      refine ⟨?_, rfl⟩
      intro p q h
      obtain ⟨rfl, rfl⟩ := List.append_eq_nil.mp h.symm
      simp
    · exact fun h => h.2
  | cons t ts ih =>
    intro d
    have hsplit : ∀ C : List Tok → Prop,
        (∀ p q, t :: ts = p ++ q → C p) ↔ (C [] ∧ ∀ p q, ts = p ++ q → C (t :: p)) := by
      intro C
      constructor
      · intro h
        refine ⟨h [] (t :: ts) rfl, ?_⟩
        intro p q hq
        exact h (t :: p) q (by rw [hq]; rfl)
      · rintro ⟨h0, h⟩ p q hq
        cases p with
        | nil => exact h0
        | cons hd p =>
          injection hq with h1 h2
          subst h1
          exact h p q h2
    by_cases hlp : t = lparenTok
    · subst hlp
      rw [show checkBal d (lparenTok :: ts) = checkBal (d + 1) ts from by simp [checkBal],
        ih (d + 1), hsplit]
      have clp : List.count lparenTok (lparenTok :: ts) = List.count lparenTok ts + 1 := by
        simp [List.count_cons]
      have crp : List.count rparenTok (lparenTok :: ts) = List.count rparenTok ts := by
        simp [List.count_cons, dne2]
      have clp2 : ∀ p : List Tok,
          List.count lparenTok (lparenTok :: p) = List.count lparenTok p + 1 := by
        intro p
        simp [List.count_cons]
      have crp2 : ∀ p : List Tok,
          List.count rparenTok (lparenTok :: p) = List.count rparenTok p := by
        intro p
        simp [List.count_cons, dne2]
      constructor
      · rintro ⟨hpre, htot⟩
        refine ⟨⟨by simp, ?_⟩, by rw [clp, crp]; omega⟩
        intro p q hq
        have := hpre p q hq
        rw [clp2, crp2]
        omega
      · rintro ⟨⟨h0, hpre⟩, htot⟩
        refine ⟨?_, by rw [clp, crp] at htot; omega⟩
        intro p q hq
        have := hpre p q hq
        rw [clp2, crp2] at this
        omega
    · by_cases hrp : t = rparenTok
      · subst hrp
        rw [show checkBal d (rparenTok :: ts) = (decide (0 < d) && checkBal (d - 1) ts) from by
            simp [checkBal, dne2],
          Bool.and_eq_true, decide_eq_true_eq, ih (d - 1), hsplit]
        have clp : List.count lparenTok (rparenTok :: ts) = List.count lparenTok ts := by
          simp [List.count_cons, dne]
        have crp : List.count rparenTok (rparenTok :: ts) = List.count rparenTok ts + 1 := by
          simp [List.count_cons]
        have clp2 : ∀ p : List Tok,
            List.count lparenTok (rparenTok :: p) = List.count lparenTok p := by
          intro p
          simp [List.count_cons, dne]
        have crp2 : ∀ p : List Tok,
            List.count rparenTok (rparenTok :: p) = List.count rparenTok p + 1 := by
          intro p
          simp [List.count_cons]
        constructor
        · rintro ⟨hd, hpre, htot⟩
          refine ⟨⟨by simp, ?_⟩, by rw [clp, crp]; omega⟩
          intro p q hq
          have := hpre p q hq
          rw [clp2, crp2]
          omega
        · rintro ⟨⟨h0, hpre⟩, htot⟩
          have hd : 0 < d := by
            have := hpre [] ts rfl
            rw [clp2, crp2] at this
            simp at this
            omega
          refine ⟨hd, ?_, by rw [clp, crp] at htot; omega⟩
          intro p q hq
          have := hpre p q hq
          rw [clp2, crp2] at this
          omega
      · have hlp2 : lparenTok ≠ t := Ne.symm hlp
        have hrp2 : rparenTok ≠ t := Ne.symm hrp
        rw [show checkBal d (t :: ts) = checkBal d ts from by simp [checkBal, hlp, hrp],
          ih d, hsplit]
        have clp : List.count lparenTok (t :: ts) = List.count lparenTok ts := by
          simp [List.count_cons, hlp2]
        have crp : List.count rparenTok (t :: ts) = List.count rparenTok ts := by
          simp [List.count_cons, hrp2]
        have clp2 : ∀ p : List Tok, List.count lparenTok (t :: p) = List.count lparenTok p := by
          intro p
          simp [List.count_cons, hlp2]
        have crp2 : ∀ p : List Tok, List.count rparenTok (t :: p) = List.count rparenTok p := by
          intro p
          simp [List.count_cons, hrp2]
        constructor
        · rintro ⟨hpre, htot⟩
          refine ⟨⟨by simp, ?_⟩, by rw [clp, crp]; omega⟩
          intro p q hq
          have := hpre p q hq
          rw [clp2, crp2]
          omega
        · rintro ⟨⟨h0, hpre⟩, htot⟩
          refine ⟨?_, by rw [clp, crp] at htot; omega⟩
          intro p q hq
          have := hpre p q hq
          rw [clp2, crp2] at this
          omega

lemma swapTok_swapTok (t : Tok) : swapTok (swapTok t) = t := by
  unfold swapTok
  by_cases h1 : t = lparenTok
  · simp [h1]
  · by_cases h2 : t = rparenTok
    · simp [h1, h2]
    · simp [h1, h2]

lemma revSwap_revSwap (ts : List Tok) : revSwap (revSwap ts) = ts := by
  unfold revSwap
  rw [List.map_reverse, List.map_map]
  have : swapTok ∘ swapTok = id := funext swapTok_swapTok
  rw [this, List.map_id, List.reverse_reverse]

lemma revSwap_append (a b : List Tok) : revSwap (a ++ b) = revSwap b ++ revSwap a := by
  simp [revSwap, List.reverse_append]

lemma swapTok_eq_lp {t : Tok} : swapTok t = lparenTok ↔ t = rparenTok := by
  unfold swapTok
  by_cases h1 : t = lparenTok
  · simp [h1]
    decide
  · by_cases h2 : t = rparenTok
    · simp [h1, h2]
    · simp [h1, h2]

lemma swapTok_eq_rp {t : Tok} : swapTok t = rparenTok ↔ t = lparenTok := by
  unfold swapTok
  by_cases h1 : t = lparenTok
  · simp [h1]
  · by_cases h2 : t = rparenTok
    · simp [h1, h2]
      decide
    · simp [h1, h2]

lemma count_map_swap_lp :
    ∀ ts : List Tok, List.count lparenTok (ts.map swapTok) = List.count rparenTok ts
  | [] => by simp
  | t :: ts => by
    simp only [List.map_cons, List.count_cons, count_map_swap_lp ts, beq_iff_eq, swapTok_eq_lp]

lemma count_map_swap_rp :
    ∀ ts : List Tok, List.count rparenTok (ts.map swapTok) = List.count lparenTok ts
  | [] => by simp
  | t :: ts => by
    simp only [List.map_cons, List.count_cons, count_map_swap_rp ts, beq_iff_eq, swapTok_eq_rp]

lemma count_revSwap_lp (ts : List Tok) :
    List.count lparenTok (revSwap ts) = List.count rparenTok ts := by
  rw [revSwap, count_map_swap_lp, List.count_reverse]

lemma count_revSwap_rp (ts : List Tok) :
    List.count rparenTok (revSwap ts) = List.count lparenTok ts := by
  rw [revSwap, count_map_swap_rp, List.count_reverse]

lemma checkBal_revSwap {ts : List Tok} (h : checkBal 0 ts = true) :
    checkBal 0 (revSwap ts) = true := by
  rw [checkBal_iff] at h ⊢
  obtain ⟨hpre, htot⟩ := h
  constructor
  · intro p q hpq
    have hts : ts = revSwap q ++ revSwap p := by
      have h2 := congrArg revSwap hpq
      rwa [revSwap_revSwap, revSwap_append] at h2
    have h1 := hpre (revSwap q) (revSwap p) hts
    have e1 := count_revSwap_rp q
    have e2 := count_revSwap_lp q
    have e3 : List.count lparenTok ts
        = List.count rparenTok q + List.count rparenTok p := by
      rw [hts, List.count_append, count_revSwap_lp, count_revSwap_lp]
    have e4 : List.count rparenTok ts
        = List.count lparenTok q + List.count lparenTok p := by
      rw [hts, List.count_append, count_revSwap_rp, count_revSwap_rp]
    omega
  · rw [count_revSwap_lp, count_revSwap_rp]
    omega

/- Success of the engines on balanced token sequences. -/

lemma first_lp_split :
    ∀ stack : List Tok, lparenTok ∈ stack →
      ∃ pre suf, stack = pre ++ lparenTok :: suf ∧ lparenTok ∉ pre
  | [], h => absurd h (List.not_mem_nil lparenTok)
  | b :: stack, h => by
    by_cases hb : b = lparenTok
    · subst hb
      exact ⟨[], stack, rfl, List.not_mem_nil lparenTok⟩
    · have hmem : lparenTok ∈ stack := by
        rcases List.mem_cons.mp h with h2 | h2
        · exact absurd h2.symm hb
        · exact h2
      obtain ⟨pre, suf, hsp, hpre⟩ := first_lp_split stack hmem
      refine ⟨b :: pre, suf, by rw [hsp]; rfl, ?_⟩
      intro hmem2
      rcases List.mem_cons.mp hmem2 with h2 | h2
      · exact hb h2.symm
      · exact hpre h2

lemma popGE_split (t : Tok) :
    ∀ stack out, ∃ pre, stack = pre ++ (popGE t stack out).1 ∧ lparenTok ∉ pre ∧
      (popGE t stack out).2 = out ++ pre
  | [], out => ⟨[], by simp [popGE]⟩
  | s :: stack, out => by
    by_cases hc : s ≠ lparenTok ∧ getPrecedence t ≤ getPrecedence s
    · have hstep : popGE t (s :: stack) out = popGE t stack (out ++ [s]) := by
        simp [popGE, hc]
      obtain ⟨pre, h1, h2, h3⟩ := popGE_split t stack (out ++ [s])
      refine ⟨s :: pre, ?_, ?_, ?_⟩
      · rw [hstep]
        conv_lhs => rw [h1]
        simp
      · intro hm
        rcases List.mem_cons.mp hm with h4 | h4
        · exact hc.1 h4.symm
        · exact h2 h4
      · rw [hstep, h3]
        simp
    · refine ⟨[], ?_, List.not_mem_nil lparenTok, ?_⟩
      · simp [popGE, hc]
      · simp [popGE, hc]

lemma popGT_split (t : Tok) :
    ∀ stack out, ∃ pre, stack = pre ++ (popGT t stack out).1 ∧ lparenTok ∉ pre ∧
      (popGT t stack out).2 = out ++ pre
  | [], out => ⟨[], by simp [popGT]⟩
  | s :: stack, out => by
    by_cases hc : s ≠ lparenTok ∧ getPrecedence t < getPrecedence s
    · have hstep : popGT t (s :: stack) out = popGT t stack (out ++ [s]) := by
        simp [popGT, hc]
      obtain ⟨pre, h1, h2, h3⟩ := popGT_split t stack (out ++ [s])
      refine ⟨s :: pre, ?_, ?_, ?_⟩
      · rw [hstep]
        conv_lhs => rw [h1]
        simp
      · intro hm
        rcases List.mem_cons.mp hm with h4 | h4
        · exact hc.1 h4.symm
        · exact h2 h4
      · rw [hstep, h3]
        simp
    · refine ⟨[], ?_, List.not_mem_nil lparenTok, ?_⟩
      · simp [popGT, hc]
      · simp [popGT, hc]

lemma syPost_success :
    ∀ ts d stack out, checkBal d ts = true → List.count lparenTok stack = d →
      rparenTok ∉ stack → ∃ o, syPost ts stack out = .ok o
  | [], d, stack, out, hbal, hcnt, _ => by
    simp only [checkBal, decide_eq_true_eq] at hbal
    subst hbal
    have hlp : lparenTok ∉ stack := by
      rw [← List.count_eq_zero (a := lparenTok)]
      omega
    rw [syPost_nil, syFlush_all stack out hlp]
    exact ⟨out ++ stack, rfl⟩
  | t :: ts, d, stack, out, hbal, hcnt, hrp => by
    by_cases h1 : isOperand t = true
    · obtain ⟨_, hl, hr⟩ := operand_facts h1
      rw [syPost_operand h1]
      exact syPost_success ts d stack (out ++ [t])
        (by simpa [checkBal, hl, hr] using hbal) hcnt hrp
    · by_cases h2 : t = lparenTok
      · subst h2
        rw [syPost_lp]
        refine syPost_success ts (d + 1) _ out (by simpa [checkBal] using hbal) ?_ ?_
        · simp [List.count_cons, hcnt]
        · intro hm
          rcases List.mem_cons.mp hm with h3 | h3
          · exact absurd h3 (by decide)
          · exact hrp h3
      · by_cases h3 : t = rparenTok
        · subst h3
          have hb2 : 0 < d ∧ checkBal (d - 1) ts = true := by
            simpa [checkBal, show rparenTok ≠ lparenTok from by decide] using hbal
          have hmem : lparenTok ∈ stack := by
            by_contra hn
            rw [← List.count_eq_zero (a := lparenTok)] at hn
            omega
          obtain ⟨pre, suf, hsp, hpre⟩ := first_lp_split stack hmem
          have hpop : popUntilLp stack out = some (suf, out ++ pre) := by
            rw [hsp]
            exact popUntilLp_all pre suf out (fun p hp => fun he => hpre (he ▸ hp))
          rw [syPost_rp, hpop]
          refine syPost_success ts (d - 1) suf (out ++ pre) hb2.2 ?_ ?_
          · have hc2 : List.count lparenTok stack
                = List.count lparenTok pre + (List.count lparenTok suf + 1) := by
              rw [hsp, List.count_append, List.count_cons]
              simp
            have hpre0 : List.count lparenTok pre = 0 := List.count_eq_zero.mpr hpre
            omega
          · intro hm
            exact hrp (by
              rw [hsp]
              exact List.mem_append_right pre (List.mem_cons_of_mem _ hm))
        · have h1f : isOperand t = false := by
            cases hx : isOperand t
            · rfl
            · exact absurd hx h1
          have h4 : isOperatorTok t = true := by
            cases hx : isOperatorTok t
            · rcases not_operand_cases h1f hx with h5 | h5
              · exact absurd h5 h2
              · exact absurd h5 h3
            · rfl
          rw [syPost_op h4]
          obtain ⟨pre, hsp, hpre, hout⟩ := popGE_split t stack out
          refine syPost_success ts d (t :: (popGE t stack out).1) ((popGE t stack out).2)
            (by simpa [checkBal, h2, h3] using hbal) ?_ ?_
          · have hpre0 : List.count lparenTok pre = 0 := List.count_eq_zero.mpr hpre
            have hsum := congrArg (List.count lparenTok) hsp
            rw [List.count_append] at hsum
            have hcons : List.count lparenTok (t :: (popGE t stack out).1)
                = List.count lparenTok (popGE t stack out).1 := by
              simp [List.count_cons]
              intro he
              exact h2 he
            omega
          · intro hm
            rcases List.mem_cons.mp hm with h5 | h5
            · exact h3 h5.symm
            · exact hrp (by rw [hsp]; exact List.mem_append_right pre h5)

lemma syPre_success :
    ∀ ts d stack out, checkBal d ts = true → List.count lparenTok stack = d →
      rparenTok ∉ stack → ∃ o, syPre ts stack out = .ok o
  | [], d, stack, out, hbal, hcnt, _ => by
    simp only [checkBal, decide_eq_true_eq] at hbal
    subst hbal
    have hlp : lparenTok ∉ stack := by
      rw [← List.count_eq_zero (a := lparenTok)]
      omega
    rw [syPre_nil, syFlush_all stack out hlp]
    exact ⟨out ++ stack, rfl⟩
  | t :: ts, d, stack, out, hbal, hcnt, hrp => by
    by_cases h1 : isOperand t = true
    · obtain ⟨_, hl, hr⟩ := operand_facts h1
      rw [syPre_operand h1]
      exact syPre_success ts d stack (out ++ [t])
        (by simpa [checkBal, hl, hr] using hbal) hcnt hrp
    · by_cases h2 : t = lparenTok
      · subst h2
        rw [syPre_lp]
        refine syPre_success ts (d + 1) _ out (by simpa [checkBal] using hbal) ?_ ?_
        · simp [List.count_cons, hcnt]
        · intro hm
          rcases List.mem_cons.mp hm with h3 | h3
          · exact absurd h3 (by decide)
          · exact hrp h3
      · by_cases h3 : t = rparenTok
        · subst h3
          have hb2 : 0 < d ∧ checkBal (d - 1) ts = true := by
            simpa [checkBal, show rparenTok ≠ lparenTok from by decide] using hbal
          have hmem : lparenTok ∈ stack := by
            by_contra hn
            rw [← List.count_eq_zero (a := lparenTok)] at hn
            omega
          obtain ⟨pre, suf, hsp, hpre⟩ := first_lp_split stack hmem
          have hpop : popUntilLp stack out = some (suf, out ++ pre) := by
            rw [hsp]
            exact popUntilLp_all pre suf out (fun p hp => fun he => hpre (he ▸ hp))
          rw [syPre_rp, hpop]
          refine syPre_success ts (d - 1) suf (out ++ pre) hb2.2 ?_ ?_
          · have hc2 : List.count lparenTok stack
                = List.count lparenTok pre + (List.count lparenTok suf + 1) := by
              rw [hsp, List.count_append, List.count_cons]
              simp
            have hpre0 : List.count lparenTok pre = 0 := List.count_eq_zero.mpr hpre
            omega
          · intro hm
            exact hrp (by
              rw [hsp]
              exact List.mem_append_right pre (List.mem_cons_of_mem _ hm))
        · have h1f : isOperand t = false := by
            cases hx : isOperand t
            · rfl
            · exact absurd hx h1
          have h4 : isOperatorTok t = true := by
            cases hx : isOperatorTok t
            · rcases not_operand_cases h1f hx with h5 | h5
              · exact absurd h5 h2
              · exact absurd h5 h3
            · rfl
          rw [syPre_op h4]
          obtain ⟨pre, hsp, hpre, hout⟩ := popGT_split t stack out
          refine syPre_success ts d (t :: (popGT t stack out).1) ((popGT t stack out).2)
            (by simpa [checkBal, h2, h3] using hbal) ?_ ?_
          · have hpre0 : List.count lparenTok pre = 0 := List.count_eq_zero.mpr hpre
            have hsum := congrArg (List.count lparenTok) hsp
            rw [List.count_append] at hsum
            have hcons : List.count lparenTok (t :: (popGT t stack out).1)
                = List.count lparenTok (popGT t stack out).1 := by
              simp [List.count_cons]
              intro he
              exact h2 he
            omega
          · intro hm
            rcases List.mem_cons.mp hm with h5 | h5
            · exact h3 h5.symm
            · exact hrp (by rw [hsp]; exact List.mem_append_right pre h5)

/- Error classification: which failures each engine can produce. -/

lemma tokenizeAux_error :
    ∀ s cur acc e, tokenizeAux s cur acc = .error e → ∃ c, e = .invalidCharacter c
  | [], cur, acc, e, h => by
    simp [tokenizeAux] at h
  | c :: rest, cur, acc, e, h => by
    rw [tokenizeAux] at h
    split_ifs at h
    all_goals
      first
      | exact tokenizeAux_error rest _ _ e h
      | (injection h with h7; exact ⟨c, h7.symm⟩)

lemma syPost_error :
    ∀ ts stack out e, syPost ts stack out = .error e →
      e = .mismatchedParenUnexpectedClose ∨ e = .mismatchedParenUnclosed
  | [], stack, out, e, h => by
    rw [syPost_nil] at h
    rcases hf : syFlush stack out with _ | o
    · rw [hf] at h
      injection h with h2
      exact Or.inr h2.symm
    · rw [hf] at h
      cases h
  | t :: ts, stack, out, e, h => by
    by_cases h1 : isOperand t = true
    · rw [syPost_operand h1] at h
      exact syPost_error ts _ _ e h
    · by_cases h2 : t = lparenTok
      · subst h2
        rw [syPost_lp] at h
        exact syPost_error ts _ _ e h
      · by_cases h3 : t = rparenTok
        · subst h3
          rw [syPost_rp] at h
          rcases hp : popUntilLp stack out with _ | ⟨st, o⟩
          · rw [hp] at h
            injection h with h4
            exact Or.inl h4.symm
          · rw [hp] at h
            exact syPost_error ts _ _ e h
        · have h1f : isOperand t = false := by
            cases hx : isOperand t
            · rfl
            · exact absurd hx h1
          have h4 : isOperatorTok t = true := by
            cases hx : isOperatorTok t
            · rcases not_operand_cases h1f hx with h5 | h5
              · exact absurd h5 h2
              · exact absurd h5 h3
            · rfl
          rw [syPost_op h4] at h
          exact syPost_error ts _ _ e h

lemma syPre_error :
    ∀ ts stack out e, syPre ts stack out = .error e →
      e = .mismatchedParenUnexpectedClose ∨ e = .mismatchedParenUnclosed
  | [], stack, out, e, h => by
    rw [syPre_nil] at h
    rcases hf : syFlush stack out with _ | o
    · rw [hf] at h
      injection h with h2
      exact Or.inr h2.symm
    · rw [hf] at h
      cases h
  | t :: ts, stack, out, e, h => by
    by_cases h1 : isOperand t = true
    · rw [syPre_operand h1] at h
      exact syPre_error ts _ _ e h
    · by_cases h2 : t = lparenTok
      · subst h2
        rw [syPre_lp] at h
        exact syPre_error ts _ _ e h
      · by_cases h3 : t = rparenTok
        · subst h3
          rw [syPre_rp] at h
          rcases hp : popUntilLp stack out with _ | ⟨st, o⟩
          · rw [hp] at h
            injection h with h4
            exact Or.inl h4.symm
          · rw [hp] at h
            exact syPre_error ts _ _ e h
        · have h1f : isOperand t = false := by
            cases hx : isOperand t
            · rfl
            · exact absurd hx h1
          have h4 : isOperatorTok t = true := by
            cases hx : isOperatorTok t
            · rcases not_operand_cases h1f hx with h5 | h5
              · exact absurd h5 h2
              · exact absurd h5 h3
            · rfl
          rw [syPre_op h4] at h
          exact syPre_error ts _ _ e h

/-- C10.  The infix engines validate nothing beyond characters and
parentheses: any input the tokenizer accepts whose parentheses are
balanced converts successfully in both directions — even structurally
malformed ones such as `"a+"` (giving `"a +"`) and `"a b"` (giving
`"a b"`) — and the only errors either engine can raise are
`InvalidCharacter` and the two parenthesis-mismatch errors. -/
theorem claim_C10_no_arity_validation :
    (∀ s ts, tokenizeInfix s = .ok ts → checkBal 0 ts = true →
      (∃ o, infixToPostfix s = .ok o) ∧ (∃ o, infixToPrefix s = .ok o)) ∧
    (∀ s e, infixToPostfix s = .error e →
      (∃ c, e = .invalidCharacter c) ∨ e = .mismatchedParenUnexpectedClose ∨
        e = .mismatchedParenUnclosed) ∧
    (∀ s e, infixToPrefix s = .error e →
      (∃ c, e = .invalidCharacter c) ∨ e = .mismatchedParenUnexpectedClose ∨
        e = .mismatchedParenUnclosed) ∧
    infixToPostfix ("a+".toList) = .ok ("a +".toList) ∧
    infixToPostfix ("a b".toList) = .ok ("a b".toList) := by
  refine ⟨?_, ?_, ?_, by rfl, by rfl⟩
  · intro s ts htok hbal
    by_cases hb : isBlank s = true
    · exact ⟨⟨[], by simp [infixToPostfix, hb]⟩, ⟨[], by simp [infixToPrefix, hb]⟩⟩
    · simp only [Bool.not_eq_true] at hb
      constructor
      · obtain ⟨o, ho⟩ := syPost_success ts 0 [] [] hbal (by simp) (by simp)
        exact ⟨joinSp o, by simp [infixToPostfix, hb, htok, ho]⟩
      · obtain ⟨o, ho⟩ := syPre_success (revSwap ts) 0 [] [] (checkBal_revSwap hbal)
          (by simp) (by simp)
        exact ⟨joinSp o.reverse, by simp [infixToPrefix, hb, htok, ho]⟩
  · intro s e h
    by_cases hb : isBlank s = true
    · rw [show infixToPostfix s = .ok [] from by simp [infixToPostfix, hb]] at h
      cases h
    · simp only [Bool.not_eq_true] at hb
      rcases ht : tokenizeInfix s with e2 | ts
      · rw [show infixToPostfix s = .error e2 from by simp [infixToPostfix, hb, ht]] at h
        injection h with h2
        subst h2
        exact Or.inl (tokenizeAux_error s [] [] e2 ht)
      · rcases hp : syPost ts [] [] with e2 | o
        · rw [show infixToPostfix s = .error e2 from by
            simp [infixToPostfix, hb, ht, hp]] at h
          injection h with h2
          subst h2
          exact Or.inr (syPost_error ts [] [] e2 hp)
        · rw [show infixToPostfix s = .ok (joinSp o) from by
            simp [infixToPostfix, hb, ht, hp]] at h
          cases h
  · intro s e h
    by_cases hb : isBlank s = true
    · rw [show infixToPrefix s = .ok [] from by simp [infixToPrefix, hb]] at h
      cases h
    · simp only [Bool.not_eq_true] at hb
      rcases ht : tokenizeInfix s with e2 | ts
      · rw [show infixToPrefix s = .error e2 from by simp [infixToPrefix, hb, ht]] at h
        injection h with h2
        subst h2
        exact Or.inl (tokenizeAux_error s [] [] e2 ht)
      · rcases hp : syPre (revSwap ts) [] [] with e2 | o
        · rw [show infixToPrefix s = .error e2 from by
            simp [infixToPrefix, hb, ht, hp]] at h
          injection h with h2
          subst h2
          exact Or.inr (syPre_error (revSwap ts) [] [] e2 hp)
        · rw [show infixToPrefix s = .ok (joinSp o.reverse) from by
            simp [infixToPrefix, hb, ht, hp]] at h
          cases h

/-- C10 witness: a balanced, tokenizable input converting in both
directions. -/
theorem claim_C10_witness :
    tokenizeInfix ("(a+)".toList) = .ok [['('], ['a'], ['+'], [')']] ∧
    checkBal 0 [['('], ['a'], ['+'], [')']] = true ∧
    (∃ o, infixToPostfix ("(a+)".toList) = .ok o) ∧
    (∃ o, infixToPrefix ("(a+)".toList) = .ok o) :=
  ⟨by rfl, by decide,
   (claim_C10_no_arity_validation.1 ("(a+)".toList) [['('], ['a'], ['+'], [')']]
     (by rfl) (by decide)).1,
   (claim_C10_no_arity_validation.1 ("(a+)".toList) [['('], ['a'], ['+'], [')']]
     (by rfl) (by decide)).2⟩

/- Basic facts about grammar derivations. -/

lemma deriv_ne_nil : ∀ {lv ts x}, InfixDeriv lv ts x → ts ≠ [] := by
  intro lv ts x h
  induction h with
  | ofT _ ih => exact ih
  | add _ _ _ _ _ => simp
  | ofF _ ih => exact ih
  | mul _ _ _ _ _ => simp
  | operand _ => simp
  | paren _ _ => simp

lemma derivWF : ∀ {lv ts x}, InfixDeriv lv ts x → treeWF x = true := by
  intro lv ts x h
  induction h with
  | ofT _ ih => exact ih
  | add _ hop _ ih1 ih2 => simp [treeWF, addOp_isOp hop, ih1, ih2]
  | ofF _ ih => exact ih
  | mul _ hop _ ih1 ih2 => simp [treeWF, mulOp_isOp hop, ih1, ih2]
  | operand hs => simpa [treeWF] using hs
  | paren _ ih => exact ih

lemma treeWF_bin {op : Tok} {l r : AExp} (h : treeWF (.bin op l r) = true) :
    isOperatorTok op = true ∧ treeWF l = true ∧ treeWF r = true := by
  simp [treeWF] at h
  tauto

lemma treeWF_atom {s : Tok} (h : treeWF (.atom s) = true) : wordTok s = true := by
  simpa [treeWF] using h

lemma postList_good :
    ∀ x, treeWF x = true → ∀ t ∈ postList x, goodTok t = true
  | .atom s, h, t, ht => by
    simp [postList] at ht
    subst ht
    exact wordTok_good (treeWF_atom h)
  | .bin op l r, h, t, ht => by
    obtain ⟨hop, hl, hr⟩ := treeWF_bin h
    rw [postList] at ht
    rcases List.mem_append.mp ht with h2 | h2
    · rcases List.mem_append.mp h2 with h3 | h3
      · exact postList_good l hl t h3
      · exact postList_good r hr t h3
    · rw [List.mem_singleton.mp h2]
      exact opTok_good hop

lemma preList_good :
    ∀ x, treeWF x = true → ∀ t ∈ preList x, goodTok t = true
  | .atom s, h, t, ht => by
    simp [preList] at ht
    subst ht
    exact wordTok_good (treeWF_atom h)
  | .bin op l r, h, t, ht => by
    obtain ⟨hop, hl, hr⟩ := treeWF_bin h
    rw [preList] at ht
    rcases List.mem_cons.mp ht with rfl | h2
    · exact opTok_good hop
    · rcases List.mem_append.mp h2 with h3 | h3
      · exact preList_good l hl t h3
      · exact preList_good r hr t h3

lemma mPost_reverse : ∀ x, (mPost x).reverse = preList x
  | .atom s => by simp [mPost, preList]
  | .bin op l r => by
    simp [mPost, preList, List.reverse_append, mPost_reverse l, mPost_reverse r]

/- Blank inputs tokenize to nothing. -/

lemma tokenizeAux_blank :
    ∀ s acc, s.all isSpaceJS = true → tokenizeAux s [] acc = .ok acc
  | [], acc, _ => by simp [tokenizeAux]
  | c :: rest, acc, h => by
    simp only [List.all_cons, Bool.and_eq_true] at h
    rw [tokenizeAux]
    rw [if_pos h.1]
    simpa using tokenizeAux_blank rest acc h.2

lemma blank_tokens {s : Str} {ts : List Tok} (hb : isBlank s = true)
    (ht : tokenizeInfix s = .ok ts) : ts = [] := by
  unfold tokenizeInfix at ht
  rw [tokenizeAux_blank s [] hb] at ht
  injection ht with h
  exact h.symm

/- Joining good tokens with single spaces and splitting on whitespace is the
identity. -/

lemma goodTok_parts {t : Tok} (h : goodTok t = true) :
    t.isEmpty = false ∧ t.all (fun c => !isSpaceJS c) = true := by
  unfold goodTok at h
  rw [Bool.and_eq_true] at h
  exact ⟨by
    cases he : t.isEmpty
    · rfl
    · rw [he] at h
      simp at h, h.2⟩

lemma splitWsAux_chars :
    ∀ (w : Str) cur acc rest, w.all (fun c => !isSpaceJS c) = true →
      splitWsAux (w ++ rest) cur acc = splitWsAux rest (cur ++ w) acc
  | [], cur, acc, rest, _ => by simp
  | c :: w, cur, acc, rest, h => by
    simp only [List.all_cons, Bool.and_eq_true, Bool.not_eq_true'] at h
    rw [List.cons_append, splitWsAux, if_neg (by rw [h.1]; simp)]
    rw [splitWsAux_chars w (cur ++ [c]) acc rest (by
      rw [List.all_eq_true]
      intro p hp
      rw [List.all_eq_true] at h
      exact h.2 p hp)]
    simp

lemma split_join :
    ∀ ts acc, (∀ t ∈ ts, goodTok t = true) → splitWsAux (joinSp ts) [] acc = acc ++ ts
  | [], acc, _ => by simp [joinSp, splitWsAux]
  | [t], acc, h => by
    obtain ⟨hne, hall⟩ := goodTok_parts (h t (by simp))
    rw [show joinSp [t] = t from rfl]
    rw [show (t : Str) = t ++ ([] : Str) from by simp, splitWsAux_chars t [] acc [] hall]
    simp [splitWsAux, hne]
  | t :: t2 :: ts, acc, h => by
    obtain ⟨hne, hall⟩ := goodTok_parts (h t (by simp))
    rw [show joinSp (t :: t2 :: ts) = t ++ ' ' :: joinSp (t2 :: ts) from rfl]
    rw [splitWsAux_chars t [] acc (' ' :: joinSp (t2 :: ts)) hall]
    rw [show ([] : Tok) ++ t = t from by simp]
    rw [splitWsAux, if_pos (by decide)]
    rw [hne]
    simp only [Bool.false_eq_true, if_false]
    rw [split_join (t2 :: ts) (acc ++ [t]) (fun p hp => h p (List.mem_cons_of_mem t hp))]
    simp

lemma joinSp_cons (t : Tok) (ts : List Tok) : ∃ u, joinSp (t :: ts) = t ++ u := by
  cases ts with
  | nil => exact ⟨[], by simp [joinSp]⟩
  | cons t2 ts => exact ⟨' ' :: joinSp (t2 :: ts), rfl⟩

lemma joinSp_not_blank {t : Tok} (ts : List Tok) (hg : goodTok t = true) :
    isBlank (joinSp (t :: ts)) = false := by
  obtain ⟨hne, hall⟩ := goodTok_parts hg
  obtain ⟨u, hu⟩ := joinSp_cons t ts
  rw [hu]
  cases t with
  | nil => simp at hne
  | cons c t2 =>
    have hc : isSpaceJS c = false := by
      simp only [List.all_cons, Bool.and_eq_true, Bool.not_eq_true'] at hall
      exact hall.1
    simp [isBlank, hc]

/- The evaluators rebuild the fully parenthesized infix string from the
serialized trees. -/

lemma evalPost_build :
    ∀ x rest stack, treeWF x = true →
      evalPost (postList x ++ rest) stack = evalPost rest (fullInfix x :: stack)
  | .atom s, rest, stack, h => by
    rw [show postList (.atom s) ++ rest = s :: rest from rfl,
      evalPost_operand (wordTok_isOperand (treeWF_atom h))]
    rfl
  | .bin op l r, rest, stack, h => by
    obtain ⟨hop, hl, hr⟩ := treeWF_bin h
    rw [show postList (.bin op l r) ++ rest
        = postList l ++ (postList r ++ (op :: rest)) from by simp [postList]]
    rw [evalPost_build l _ _ hl, evalPost_build r _ _ hr, evalPost_op hop]
    rfl

lemma evalPre_build :
    ∀ x rest stack, treeWF x = true →
      evalPre (mPost x ++ rest) stack = evalPre rest (fullInfix x :: stack)
  | .atom s, rest, stack, h => by
    rw [show mPost (.atom s) ++ rest = s :: rest from rfl,
      evalPre_operand (wordTok_isOperand (treeWF_atom h))]
    rfl
  | .bin op l r, rest, stack, h => by
    obtain ⟨hop, hl, hr⟩ := treeWF_bin h
    rw [show mPost (.bin op l r) ++ rest
        = mPost r ++ (mPost l ++ (op :: rest)) from by simp [mPost]]
    rw [evalPre_build r _ _ hr, evalPre_build l _ _ hl, evalPre_op hop]
    rfl

/- Engine correctness over grammar derivations. -/

lemma syPost_op2 {t : Tok} (h : isOperatorTok t = true) {stack out st o : List Tok}
    (hp : popGE t stack out = (st, o)) (ts : List Tok) :
    syPost (t :: ts) stack out = syPost ts (t :: st) o := by
  rw [syPost_op h, hp]

lemma syPost_rp2 {stack out st o : List Tok} (hp : popUntilLp stack out = some (st, o))
    (ts : List Tok) :
    syPost (rparenTok :: ts) stack out = syPost ts st o := by
  rw [syPost_rp, hp]

lemma syPre_op2 {t : Tok} (h : isOperatorTok t = true) {stack out st o : List Tok}
    (hp : popGT t stack out = (st, o)) (ts : List Tok) :
    syPre (t :: ts) stack out = syPre ts (t :: st) o := by
  rw [syPre_op h, hp]

lemma syPre_rp2 {stack out st o : List Tok} (hp : popUntilLp stack out = some (st, o))
    (ts : List Tok) :
    syPre (rparenTok :: ts) stack out = syPre ts st o := by
  rw [syPre_rp, hp]

lemma topT_of_topE {stack : List Tok} (h : TopE stack) : TopT stack := by
  rcases h with rfl | ⟨st, rfl⟩
  · exact Or.inl rfl
  · exact Or.inr (Or.inl ⟨st, rfl⟩)

lemma postEngine : ∀ {lv ts x}, InfixDeriv lv ts x → PostM lv ts x := by
  intro lv ts x h
  induction h with
  | ofT _ ih =>
    simp only [PostM] at ih ⊢
    obtain ⟨pend, em, hmul, hser, heq⟩ := ih
    exact ⟨pend, em, fun p hp => mulOp_isOp (hmul p hp), hser,
      fun rest stack out hse => heq rest stack out (topT_of_topE hse)⟩
  | @add ts1 x1 op ts2 x2 h1 hop h2 ih1 ih2 =>
    simp only [PostM] at ih1 ih2 ⊢
    obtain ⟨p1, e1, hop1, hs1, he1⟩ := ih1
    obtain ⟨p2, e2, hop2, hs2, he2⟩ := ih2
    refine ⟨p2 ++ [op], e1 ++ p1 ++ e2, ?_, ?_, ?_⟩
    · intro p hp
      rcases List.mem_append.mp hp with hp | hp
      · exact mulOp_isOp (hop2 p hp)
      · rw [List.mem_singleton.mp hp]
        exact addOp_isOp hop
    · rw [postList, ← hs1, ← hs2]
      simp
    · intro rest stack out hse
      rw [show (ts1 ++ op :: ts2) ++ rest = ts1 ++ (op :: (ts2 ++ rest)) from by simp,
        he1 (op :: (ts2 ++ rest)) stack out hse]
      have hpop : popGE op (p1 ++ stack) (out ++ e1) = (stack, (out ++ e1) ++ p1) := by
        apply popGE_all
        · intro p hp
          have hpo := hop1 p hp
          exact ⟨opTok_ne_lp hpo, by rw [addOp_prec hop]; exact opTok_prec_pos hpo⟩
        · rcases hse with rfl | ⟨st, rfl⟩
          · exact Or.inl rfl
          · exact Or.inr ⟨lparenTok, st, rfl, Or.inl rfl⟩
      rw [syPost_op2 (addOp_isOp hop) hpop]
      rw [he2 rest (op :: stack) ((out ++ e1) ++ p1) (Or.inr (Or.inr ⟨op, stack, rfl, hop⟩))]
      congr 1 <;> simp
  | @ofF ts0 x0 hd ih =>
    simp only [PostM] at ih ⊢
    refine ⟨[], postList x0, by simp, by simp, ?_⟩
    intro rest stack out _
    rw [ih rest stack out]
    simp
  | @mul ts1 x1 op ts2 x2 h1 hop h2 ih1 ih2 =>
    simp only [PostM] at ih1 ih2 ⊢
    obtain ⟨p1, e1, hmul1, hs1, he1⟩ := ih1
    refine ⟨[op], e1 ++ p1 ++ postList x2, ?_, ?_, ?_⟩
    · intro p hp
      rw [List.mem_singleton.mp hp]
      exact hop
    · rw [postList, ← hs1]
    · intro rest stack out hst
      rw [show (ts1 ++ op :: ts2) ++ rest = ts1 ++ (op :: (ts2 ++ rest)) from by simp,
        he1 (op :: (ts2 ++ rest)) stack out hst]
      have hpop : popGE op (p1 ++ stack) (out ++ e1) = (stack, (out ++ e1) ++ p1) := by
        apply popGE_all
        · intro p hp
          have hpm := hmul1 p hp
          exact ⟨opTok_ne_lp (mulOp_isOp hpm), by rw [mulOp_prec hop, mulOp_prec hpm]⟩
        · rcases hst with rfl | hst
          · exact Or.inl rfl
          · rcases hst with ⟨st, rfl⟩ | ⟨s, st, rfl, hadd⟩
            · exact Or.inr ⟨lparenTok, st, rfl, Or.inl rfl⟩
            · exact Or.inr ⟨s, st, rfl,
                Or.inr (by rw [mulOp_prec hop, addOp_prec hadd]; omega)⟩
      rw [syPost_op2 (mulOp_isOp hop) hpop]
      rw [ih2 rest (op :: stack) ((out ++ e1) ++ p1)]
      congr 1 <;> simp
  | @operand s hs =>
    simp only [PostM]
    intro rest stack out
    rw [show ([s] : List Tok) ++ rest = s :: rest from rfl,
      syPost_operand (wordTok_isOperand hs)]
    simp [postList]
  | @paren ts0 x0 hd ih =>
    simp only [PostM] at ih ⊢
    obtain ⟨p1, e1, hops, hs1, he1⟩ := ih
    intro rest stack out
    rw [show (lparenTok :: ts0 ++ [rparenTok]) ++ rest
        = lparenTok :: (ts0 ++ (rparenTok :: rest)) from by simp]
    rw [syPost_lp, he1 (rparenTok :: rest) (lparenTok :: stack) out (Or.inr ⟨stack, rfl⟩)]
    have hpop : popUntilLp (p1 ++ lparenTok :: stack) (out ++ e1)
        = some (stack, (out ++ e1) ++ p1) :=
      popUntilLp_all p1 stack (out ++ e1) (fun p hp => opTok_ne_lp (hops p hp))
    rw [syPost_rp2 hpop]
    congr 1
    rw [← hs1]
    simp

lemma syPost_run {ts : List Tok} {x : AExp} (h : InfixDeriv .e ts x) :
    syPost ts [] [] = .ok (postList x) := by
  have hm := postEngine h
  simp only [PostM] at hm
  obtain ⟨pend, em, hops, hser, heq⟩ := hm
  have h2 := heq [] [] [] (Or.inl rfl)
  rw [List.append_nil] at h2
  have hnl : lparenTok ∉ pend ++ ([] : List Tok) := by
    rw [List.append_nil]
    intro hm2
    exact (opTok_ne_lp (hops lparenTok hm2)) rfl
  rw [h2, syPost_nil, syFlush_all (pend ++ []) ([] ++ em) hnl]
  simp only [List.append_nil, List.nil_append]
  rw [hser]

/- Reversal with parenthesis swap sends the grammar to its mirror. -/

lemma revSwap_middle (ts1 : List Tok) (op : Tok) (ts2 : List Tok) (hop : swapTok op = op) :
    revSwap (ts1 ++ op :: ts2) = revSwap ts2 ++ op :: revSwap ts1 := by
  simp [revSwap, List.reverse_append, hop]

lemma revSwap_paren (ts : List Tok) :
    revSwap (lparenTok :: ts ++ [rparenTok]) = lparenTok :: revSwap ts ++ [rparenTok] := by
  simp [revSwap, List.reverse_append,
    show swapTok lparenTok = rparenTok from by decide,
    show swapTok rparenTok = lparenTok from by decide]

lemma derivRevSwap : ∀ {lv ts x}, InfixDeriv lv ts x → RevDeriv lv (revSwap ts) x := by
  intro lv ts x h
  induction h with
  | ofT _ ih => exact RevDeriv.ofT ih
  | @add ts1 x1 op ts2 x2 h1 hop h2 ih1 ih2 =>
    rw [revSwap_middle ts1 op ts2 (opTok_swap (addOp_isOp hop))]
    exact RevDeriv.add ih2 hop ih1
  | ofF _ ih => exact RevDeriv.ofF ih
  | @mul ts1 x1 op ts2 x2 h1 hop h2 ih1 ih2 =>
    rw [revSwap_middle ts1 op ts2 (opTok_swap (mulOp_isOp hop))]
    exact RevDeriv.mul ih2 hop ih1
  | @operand s hs =>
    rw [show revSwap [s] = [swapTok s] from rfl, wordTok_swap hs]
    exact RevDeriv.operand hs
  | @paren ts0 x0 hd ih =>
    rw [revSwap_paren ts0]
    exact RevDeriv.paren ih

/- Correctness of the strict engine over mirror derivations. -/

lemma preEngine : ∀ {lv ts x}, RevDeriv lv ts x → PreM lv ts x := by
  intro lv ts x h
  induction h with
  | @ofT ts0 x0 hd ih =>
    simp only [PreM] at ih ⊢
    obtain ⟨pend, em, hmul, hser, heq⟩ := ih
    refine ⟨pend, [], em, hmul, by simp, by simpa using hser, ?_⟩
    intro rest stack out _
    rw [heq rest stack out]
    simp
  | @add ts1 x1 op ts2 x2 h1 hop h2 ih1 ih2 =>
    simp only [PreM] at ih1 ih2 ⊢
    obtain ⟨p1, e1, hm1, hs1, he1⟩ := ih1
    obtain ⟨pm2, pa2, e2, hm2, ha2, hs2, he2⟩ := ih2
    refine ⟨pm2, pa2 ++ [op], e1 ++ p1 ++ e2, hm2, ?_, ?_, ?_⟩
    · intro p hp
      rcases List.mem_append.mp hp with hp | hp
      · exact ha2 p hp
      · rw [List.mem_singleton.mp hp]
        exact hop
    · rw [mPost, ← hs1, ← hs2]
      simp
    · intro rest stack out hst
      rw [show (ts1 ++ op :: ts2) ++ rest = ts1 ++ (op :: (ts2 ++ rest)) from by simp,
        he1 (op :: (ts2 ++ rest)) stack out]
      have hpop : popGT op (p1 ++ stack) (out ++ e1) = (stack, (out ++ e1) ++ p1) := by
        apply popGT_all
        · intro p hp
          have hpm := hm1 p hp
          exact ⟨opTok_ne_lp (mulOp_isOp hpm),
            by rw [addOp_prec hop, mulOp_prec hpm]; omega⟩
        · rcases hst with rfl | hst
          · exact Or.inl rfl
          · rcases hst with ⟨st, rfl⟩ | ⟨s, st, rfl, hadd⟩
            · exact Or.inr ⟨lparenTok, st, rfl, Or.inl rfl⟩
            · exact Or.inr ⟨s, st, rfl,
                Or.inr (by rw [addOp_prec hop, addOp_prec hadd])⟩
      rw [syPre_op2 (addOp_isOp hop) hpop]
      rw [he2 rest (op :: stack) ((out ++ e1) ++ p1) (Or.inr (Or.inr ⟨op, stack, rfl, hop⟩))]
      congr 1 <;> simp
  | @ofF ts0 x0 hd ih =>
    simp only [PreM] at ih ⊢
    refine ⟨[], mPost x0, by simp, by simp, ?_⟩
    intro rest stack out
    rw [ih rest stack out]
    simp
  | @mul ts1 x1 op ts2 x2 h1 hop h2 ih1 ih2 =>
    simp only [PreM] at ih1 ih2 ⊢
    obtain ⟨p2, e2, hm2, hs2, he2⟩ := ih2
    refine ⟨p2 ++ [op], mPost x1 ++ e2, ?_, ?_, ?_⟩
    · intro p hp
      rcases List.mem_append.mp hp with hp | hp
      · exact hm2 p hp
      · rw [List.mem_singleton.mp hp]
        exact hop
    · rw [mPost, ← hs2]
      simp
    · intro rest stack out
      rw [show (ts1 ++ op :: ts2) ++ rest = ts1 ++ (op :: (ts2 ++ rest)) from by simp,
        ih1 (op :: (ts2 ++ rest)) stack out]
      rw [syPre_op2 (mulOp_isOp hop) (popGT_top (mulOp_prec hop) stack (out ++ mPost x1))]
      rw [he2 rest (op :: stack) (out ++ mPost x1)]
      congr 1 <;> simp
  | @operand s hs =>
    simp only [PreM]
    intro rest stack out
    rw [show ([s] : List Tok) ++ rest = s :: rest from rfl,
      syPre_operand (wordTok_isOperand hs)]
    simp [mPost]
  | @paren ts0 x0 hd ih =>
    simp only [PreM] at ih ⊢
    obtain ⟨pm, pa, em, hmm, hma, hs1, he1⟩ := ih
    intro rest stack out
    rw [show (lparenTok :: ts0 ++ [rparenTok]) ++ rest
        = lparenTok :: (ts0 ++ (rparenTok :: rest)) from by simp]
    rw [syPre_lp, he1 (rparenTok :: rest) (lparenTok :: stack) out (Or.inr (Or.inl ⟨stack, rfl⟩))]
    have hpop : popUntilLp ((pm ++ pa) ++ lparenTok :: stack) (out ++ em)
        = some (stack, (out ++ em) ++ (pm ++ pa)) := by
      apply popUntilLp_all
      intro p hp
      rcases List.mem_append.mp hp with hp | hp
      · exact opTok_ne_lp (mulOp_isOp (hmm p hp))
      · exact opTok_ne_lp (addOp_isOp (hma p hp))
    rw [syPre_rp2 hpop]
    congr 1
    rw [← hs1]
    simp

lemma syPre_run {ts : List Tok} {x : AExp} (h : RevDeriv .e ts x) :
    syPre ts [] [] = .ok (mPost x) := by
  have hm := preEngine h
  simp only [PreM] at hm
  obtain ⟨pm, pa, em, hmm, hma, hser, heq⟩ := hm
  have h2 := heq [] [] [] (Or.inl rfl)
  rw [List.append_nil] at h2
  have hnl : lparenTok ∉ (pm ++ pa) ++ ([] : List Tok) := by
    rw [List.append_nil]
    intro hm2
    rcases List.mem_append.mp hm2 with hp | hp
    · exact (opTok_ne_lp (mulOp_isOp (hmm lparenTok hp))) rfl
    · exact (opTok_ne_lp (addOp_isOp (hma lparenTok hp))) rfl
  rw [h2, syPre_nil, syFlush_all ((pm ++ pa) ++ []) ([] ++ em) hnl]
  simp only [List.append_nil, List.nil_append]
  rw [hser]

/- The infix tokenizer recovers exactly the tokens of the fully
parenthesized output string. -/

lemma opTok_char {t : Tok} (h : isOperatorTok t = true) :
    ∃ c, t = [c] ∧ isOperatorChar c = true := by
  rcases opTok_cases h with rfl | rfl | rfl | rfl
  · exact ⟨'+', rfl, by decide⟩
  · exact ⟨'-', rfl, by decide⟩
  · exact ⟨'*', rfl, by decide⟩
  · exact ⟨'/', rfl, by decide⟩

lemma op_add_or_mul {t : Tok} (h : isOperatorTok t = true) :
    isAddOpTok t = true ∨ isMulOpTok t = true := by
  rcases opTok_cases h with rfl | rfl | rfl | rfl
  · exact Or.inl (by decide)
  · exact Or.inl (by decide)
  · exact Or.inr (by decide)
  · exact Or.inr (by decide)

lemma tokenizeAux_sym {c : Char} (hs : isSpaceJS c = false) (hd : isDigitC c = false)
    (hdot : (c == '.') = false) (hsym : (isOperatorChar c || c == '(' || c == ')') = true)
    (rest : Str) (acc : List Tok) :
    tokenizeAux (c :: rest) [] acc = tokenizeAux rest [] (acc ++ [[c]]) := by
  rw [tokenizeAux]
  rw [if_neg (by simp [hs])]
  rw [if_neg (by simp [hd, hdot])]
  rw [if_pos hsym]
  simp

lemma tokenizeAux_sp (rest : Str) (acc : List Tok) :
    tokenizeAux (' ' :: rest) [] acc = tokenizeAux rest [] acc := by
  rw [tokenizeAux, if_pos (by decide)]
  simp

lemma tokenizeAux_digits :
    ∀ (w : Str) cur acc rest, w.all isDigitC = true →
      tokenizeAux (w ++ rest) cur acc = tokenizeAux rest (cur ++ w) acc
  | [], cur, acc, rest, _ => by simp
  | c :: w, cur, acc, rest, h => by
    simp only [List.all_cons, Bool.and_eq_true] at h
    rw [List.cons_append, tokenizeAux]
    rw [if_neg (by simp [digit_not_space h.1])]
    rw [if_pos (by simp [h.1])]
    rw [tokenizeAux_digits w (cur ++ [c]) acc rest h.2]
    simp

lemma tokenizeAux_flush :
    ∀ (w : Str) acc rest, w ≠ [] →
      (rest = [] ∨ (∃ r, rest = ' ' :: r) ∨ (∃ r, rest = ')' :: r)) →
      tokenizeAux rest w acc = tokenizeAux rest [] (acc ++ [w]) := by
  intro w acc rest hne hf
  have hemp : w.isEmpty = false := by
    cases w
    · exact absurd rfl hne
    · rfl
  rcases hf with rfl | ⟨r, rfl⟩ | ⟨r, rfl⟩
  · simp [tokenizeAux, hemp]
  · simp [tokenizeAux, hemp, show isSpaceJS ' ' = true from by decide]
  · simp [tokenizeAux, hemp,
      show isSpaceJS ')' = false from by decide,
      show isDigitC ')' = false from by decide,
      show (')' == '.') = false from by decide,
      show (')' == '(') = false from by decide,
      show (')' == ')') = true from by decide,
      show isOperatorChar ')' = false from by decide]

lemma tokenizeAux_word :
    ∀ (w : Str), wordTok w = true → ∀ acc rest,
      (rest = [] ∨ (∃ r, rest = ' ' :: r) ∨ (∃ r, rest = ')' :: r)) →
      tokenizeAux (w ++ rest) [] acc = tokenizeAux rest [] (acc ++ [w]) := by
  intro w hw acc rest hf
  simp only [wordTok, Bool.or_eq_true, Bool.and_eq_true, Bool.not_eq_true'] at hw
  rcases hw with hw | ⟨hne, hall⟩
  · rcases w with _ | ⟨c, _ | ⟨d, w2⟩⟩
    · simp at hw
    · have hA : isAlphaC c = true := by simpa using hw
      have hstep : tokenizeAux ([c] ++ rest) [] acc = tokenizeAux rest [c] acc := by
        simp [tokenizeAux, alpha_not_space hA, alpha_not_digit hA, alpha_ne_dot hA,
          alpha_not_op hA, alpha_ne_lp hA, alpha_ne_rp hA, hA]
      rw [hstep]
      exact tokenizeAux_flush [c] acc rest (by simp) hf
    · simp at hw
  · rw [tokenizeAux_digits w [] acc rest hall]
    rw [List.nil_append]
    exact tokenizeAux_flush w acc rest (by
      intro hnil
      rw [hnil] at hne
      simp at hne) hf

lemma tokFull :
    ∀ x, treeWF x = true → ∀ acc rest,
      (rest = [] ∨ (∃ r, rest = ' ' :: r) ∨ (∃ r, rest = ')' :: r)) →
      tokenizeAux (fullInfix x ++ rest) [] acc = tokenizeAux rest [] (acc ++ fullToks x)
  | .atom s, h, acc, rest, hf => tokenizeAux_word s (treeWF_atom h) acc rest hf
  | .bin op l r, h, acc, rest, hf => by
    obtain ⟨hop, hl, hr⟩ := treeWF_bin h
    obtain ⟨c, rfl, hoc⟩ := opTok_char hop
    rw [show fullInfix (.bin [c] l r) ++ rest
        = '(' :: (fullInfix l ++ (' ' :: (c :: (' ' :: (fullInfix r ++ (')' :: rest))))))
        from by simp [fullInfix, parenJoin]]
    rw [tokenizeAux_sym (by decide) (by decide) (by decide) (by decide)]
    rw [tokFull l hl (acc ++ [['(']]) (' ' :: (c :: (' ' :: (fullInfix r ++ (')' :: rest)))))
      (Or.inr (Or.inl ⟨_, rfl⟩))]
    rw [tokenizeAux_sp]
    rw [tokenizeAux_sym (opChar_not_space hoc) (opChar_not_digit hoc) (opChar_ne_dot hoc)
      (by simp [hoc])]
    rw [tokenizeAux_sp]
    rw [tokFull r hr (acc ++ [['(']] ++ fullToks l ++ [[c]]) (')' :: rest)
      (Or.inr (Or.inr ⟨rest, rfl⟩))]
    rw [tokenizeAux_sym (by decide) (by decide) (by decide) (by decide)]
    congr 1
    simp [fullToks, lparenTok, rparenTok]

lemma fullDeriv : ∀ x, treeWF x = true → InfixDeriv .f (fullToks x) x
  | .atom s, h => InfixDeriv.operand (treeWF_atom h)
  | .bin op l r, h => by
    obtain ⟨hop, hl, hr⟩ := treeWF_bin h
    have hL : InfixDeriv .e (fullToks l) l := .ofT (.ofF (fullDeriv l hl))
    have hR : InfixDeriv .f (fullToks r) r := fullDeriv r hr
    rcases op_add_or_mul hop with ha | hm
    · exact InfixDeriv.paren (InfixDeriv.add hL ha (.ofF hR))
    · exact InfixDeriv.paren (.ofT (InfixDeriv.mul (.ofF (fullDeriv l hl)) hm hR))

lemma postList_ne_nil : ∀ x, postList x ≠ []
  | .atom s => by simp [postList]
  | .bin op l r => by simp [postList]

lemma preList_ne_nil : ∀ x, preList x ≠ []
  | .atom s => by simp [preList]
  | .bin op l r => by simp [preList]

/-- C1.  Round trip: for every infix input string whose tokens form a valid
infix expression (single-letter or number operands, the four operators,
parentheses) denoting the tree `x`, `infixToPostfix` and `infixToPrefix`
produce exactly the postfix/prefix serializations of `x`, both evaluators
map those back to the same fully parenthesized infix string, and that
output string re-tokenizes and re-derives (whitespace and the added
parentheses normalized away by the grammar) to exactly the tree `x`. -/
theorem claim_C1_roundtrip {s : Str} {ts : List Tok} {x : AExp}
    (htok : tokenizeInfix s = .ok ts) (hder : InfixDeriv .e ts x) :
    infixToPostfix s = .ok (joinSp (postList x)) ∧
    postfixToInfix (joinSp (postList x)) = .ok (fullInfix x) ∧
    infixToPrefix s = .ok (joinSp (preList x)) ∧
    prefixToInfix (joinSp (preList x)) = .ok (fullInfix x) ∧
    tokenizeInfix (fullInfix x) = .ok (fullToks x) ∧
    InfixDeriv .e (fullToks x) x := by
  have hwf : treeWF x = true := derivWF hder
  have hnb : isBlank s = false := by
    cases hb : isBlank s
    · rfl
    · exact absurd (blank_tokens hb htok) (deriv_ne_nil hder)
  refine ⟨?_, ?_, ?_, ?_, ?_, ?_⟩
  · simp [infixToPostfix, hnb, htok, syPost_run hder]
  · have hgood : ∀ t ∈ postList x, goodTok t = true := postList_good x hwf
    obtain ⟨t0, ts0, hps⟩ : ∃ t0 ts0, postList x = t0 :: ts0 := by
      rcases hp : postList x with _ | ⟨t0, ts0⟩
      · exact absurd hp (postList_ne_nil x)
      · exact ⟨t0, ts0, rfl⟩
    have hnb2 : isBlank (joinSp (postList x)) = false := by
      rw [hps]
      exact joinSp_not_blank ts0 (hgood t0 (by rw [hps]; exact List.mem_cons_self t0 ts0))
    have hsplit : splitWs (joinSp (postList x)) = postList x := by
      unfold splitWs
      rw [split_join (postList x) [] hgood]
      simp
    have heval : evalPost (postList x) [] = .ok (fullInfix x) := by
      have h2 := evalPost_build x [] [] hwf
      rw [List.append_nil] at h2
      rw [h2]
      rfl
    simp [postfixToInfix, hnb2, hsplit, heval]
  · have hrun := syPre_run (derivRevSwap hder)
    simp [infixToPrefix, hnb, htok, hrun, mPost_reverse]
  · have hgood : ∀ t ∈ preList x, goodTok t = true := preList_good x hwf
    obtain ⟨t0, ts0, hps⟩ : ∃ t0 ts0, preList x = t0 :: ts0 := by
      rcases hp : preList x with _ | ⟨t0, ts0⟩
      · exact absurd hp (preList_ne_nil x)
      · exact ⟨t0, ts0, rfl⟩
    have hnb2 : isBlank (joinSp (preList x)) = false := by
      rw [hps]
      exact joinSp_not_blank ts0 (hgood t0 (by rw [hps]; exact List.mem_cons_self t0 ts0))
    have hsplit : splitWs (joinSp (preList x)) = preList x := by
      unfold splitWs
      rw [split_join (preList x) [] hgood]
      simp
    have hrev : (preList x).reverse = mPost x := by
      rw [← mPost_reverse x, List.reverse_reverse]
    have heval : evalPre (mPost x) [] = .ok (fullInfix x) := by
      have h2 := evalPre_build x [] [] hwf
      rw [List.append_nil] at h2
      rw [h2]
      rfl
    simp [prefixToInfix, hnb2, hsplit, hrev, heval]
  · have h2 := tokFull x hwf [] [] (Or.inl rfl)
    rw [List.append_nil] at h2
    unfold tokenizeInfix
    rw [h2]
    simp [tokenizeAux]
  · exact .ofT (.ofF (fullDeriv x hwf))

/-- C1 witness: the round trip at `"a+b*c"`, whose tokens derive the tree
`a + (b * c)`. -/
theorem claim_C1_witness :
    tokenizeInfix ("a+b*c".toList) = .ok [['a'], ['+'], ['b'], ['*'], ['c']] ∧
    infixToPostfix ("a+b*c".toList) = .ok ("a b c * +".toList) ∧
    postfixToInfix ("a b c * +".toList) = .ok ("(a + (b * c))".toList) ∧
    infixToPrefix ("a+b*c".toList) = .ok ("+ a * b c".toList) ∧
    prefixToInfix ("+ a * b c".toList) = .ok ("(a + (b * c))".toList) :=
  have hd : InfixDeriv .e [['a'], ['+'], ['b'], ['*'], ['c']]
      (.bin ['+'] (.atom ['a']) (.bin ['*'] (.atom ['b']) (.atom ['c']))) :=
    .add (.ofT (.ofF (.operand (by decide)))) (by decide)
      (.mul (.ofF (.operand (by decide))) (by decide) (.operand (by decide)))
  have h := claim_C1_roundtrip (by rfl) hd
  ⟨by rfl, h.1, h.2.1, h.2.2.1, h.2.2.2.1⟩
